import Mathlib

/-!
# Verification of the go-threads `db` query engine (`db/query.go`)

Shallow embedding of the query data model, the predicate evaluator
(`Query.match`, `Criterion.match`, `compareValue`), the dotted field-path
traversal (`traverseFieldPathMap`), and the result pipeline's sort phase
(`Txn.Find`, lines 196-254), together with proofs of the spec's claims.

Modelling conventions:
* Go `float64` operands are modelled as `Rat`; none of the verified claims
  involve NaN or rounding (the spec leaves NaN behaviour unspecified).
* A record (`map[string]interface{}` after JSON decoding) is an association
  list from strings to runtime values `RVal`.  Runtime values outside the
  three comparable scalar domains (arrays, null, nested non-map data) are
  collapsed into the `RVal.vother` constructor: every dynamic type assertion
  in the source treats them uniformly as "not this type".
* Go's `(int, error)` returns, together with the `log.Fatalf`/`panic`
  escalation paths of the source, are modelled by the three-way result
  type `Res`.
-/

namespace GoThreads

/-- A runtime (JSON-decoded) value stored in a record field.
`vnum` models Go `float64` (as `Rat`, see file header); `vmap` a nested
`map[string]interface{}`; `vother` any other runtime type (slice, nil, ...),
which every type assertion in the source rejects. -/
inductive RVal where
  | vstr (s : String)
  | vbool (b : Bool)
  | vnum (q : Rat)
  | vmap (m : List (String × RVal))
  | vother (tag : String)
  deriving Repr

/-- A record: the deserialized `map[string]interface{}` form of an instance. -/
abbrev Record := List (String × RVal)

/-- `Value` models a single value in JSON: three optional variants
(source `Value` struct with `*string`, `*bool`, `*float64` fields). -/
structure Value where
  string? : Option String
  bool? : Option Bool
  float? : Option Rat
  deriving Repr, DecidableEq

/-- `Operation` models comparison operators (source constants `Eq..Le`). -/
inductive Operation where
  | eq | ne | gt | lt | ge | le
  deriving Repr, DecidableEq

/-- `Criterion` represents a restriction on a field.  The source's back
pointer `query *Query` is builder plumbing (it only routes the next fluent
call) and plays no role in evaluation, so it is not part of the model. -/
structure Criterion where
  FieldPath : String
  Operation : Operation
  Value : Value
  deriving Repr, DecidableEq

/-- `Sort` (source struct; renamed, `Sort` is a Lean keyword):
a sort order on a field. -/
structure SortSpec where
  FieldPath : String
  Desc : Bool
  deriving Repr, DecidableEq

/-- `Query` is a json-seriable query representation: an AND-group `Ands`,
OR-alternatives `Ors`, a sort spec and an index hint. -/
inductive Query where
  | mk (Ands : List Criterion) (Ors : List Query) (sortBy : SortSpec) (Index : String)
  deriving Repr

/-- The AND-group of a query. -/
def Query.Ands : Query → List Criterion
  | .mk a _ _ _ => a

/-- The OR-alternatives of a query. -/
def Query.Ors : Query → List Query
  | .mk _ o _ _ => o

/-- The sort specification of a query (source field `Sort`). -/
def Query.sortBy : Query → SortSpec
  | .mk _ _ s _ => s

/-- The index hint of a query. -/
def Query.Index : Query → String
  | .mk _ _ _ i => i

/-- Errors returned by the evaluator (Go `error` values). -/
inductive QErr where
  /-- `errTypeMismatch{value, critVal}` from `compareValue`. -/
  | typeMismatch (value : RVal) (critVal : Value)
  /-- `fmt.Errorf("instance field %s doesn't exist in type %s", fieldPath, value)`
  from `traverseFieldPathMap`: carries the full original path and the record. -/
  | fieldNotFound (fieldPath : String) (record : Record)
  /-- `ErrInvalidSortingField` from `Find`. -/
  | invalidSortingField
  deriving Repr

/-- Result of a Go call that may return an error, and may also escalate to a
process-fatal condition (`log.Fatalf` / `panic`, which never return). -/
inductive Res (α : Type) where
  | ok (a : α)
  | err (e : QErr)
  | fatal (msg : String)
  deriving Repr

/-- Lexicographic three-way comparison of code-point sequences. -/
def charListCompare : List Char → List Char → Int
  | [], [] => 0
  | [], _ :: _ => -1
  | _ :: _, [] => 1
  | a :: as, b :: bs =>
    if a = b then charListCompare as bs
    else if a.toNat < b.toNat then -1 else 1

/-- Go `strings.Compare`: -1/0/+1 byte-wise lexicographic comparison of the
UTF-8 encodings; UTF-8 byte order coincides with code-point order, so it is
the lexicographic comparison of the code-point sequences. -/
def stringsCompare (a b : String) : Int :=
  charListCompare a.data b.data

/-- First-match association-list lookup, modelling Go map indexing
`m[field]` (JSON-decoded maps have unique keys). -/
def lookupField : List (String × RVal) → String → Option RVal
  | [], _ => none
  | (k, v) :: rest, f => if k = f then some v else lookupField rest f

/-- Go `strings.Split(fieldPath, ".")` (standard library), specialised to
the one-character separator the source uses, as structural recursion over
the string's characters: `""` splits to `[""]`, `"a.b"` to `["a", "b"]`,
consecutive separators yield empty segments — exactly Go's behaviour. -/
def splitDot : List Char → List String
  | [] => [""]
  | c :: cs =>
    if c = '.' then "" :: splitDot cs
    else
      match splitDot cs with
      | h :: t => String.mk (c :: h.data) :: t
      | [] => [String.mk [c]]

/-- The loop of `traverseFieldPathMap`: walk the already-split segments,
requiring at each step a string-keyed map containing the segment key. -/
def traverseSegs : RVal → List String → Option RVal
  | curr, [] => some curr
  | curr, f :: fs =>
    match curr with
    | .vmap m =>
      match lookupField m f with
      | some v => traverseSegs v fs
      | none => none
    | _ => none

/-- `traverseFieldPathMap(value, fieldPath)`: split the path on `.` and
descend; both failure kinds (non-map node, absent key) at any depth produce
the one uniform error carrying the full path and the record. -/
def traverseFieldPathMap (value : Record) (fieldPath : String) : Res RVal :=
  match traverseSegs (.vmap value) (splitDot fieldPath.data) with
  | some v => .ok v
  | none => .err (.fieldNotFound fieldPath value)

/-- `compareValue(value, critVal)`: three-way comparison of a runtime value
against the populated criterion variant; variants are tested in source
order String, Bool, Float; no populated variant hits `log.Fatalf`. -/
def compareValue (value : RVal) (critVal : Value) : Res Int :=
  match critVal.string? with
  | some cs =>
    match value with
    | .vstr s => .ok (stringsCompare s cs)
    | _ => .err (.typeMismatch value critVal)
  | none =>
    match critVal.bool? with
    | some cb =>
      match value with
      | .vbool b => if cb = b then .ok 0 else .ok (-1)
      | _ => .err (.typeMismatch value critVal)
    | none =>
      match critVal.float? with
      | some cf =>
        match value with
        | .vnum f =>
          if f = cf then .ok 0 else if f < cf then .ok (-1) else .ok 1
        | _ => .err (.typeMismatch value critVal)
      | none => .fatal "no underlying value for criterion was provided"

/-- `(*Criterion).match(value)`: apply the operation's truth table to the
three-way comparison result.  `Operation` is a closed enum here, so the
source's `panic("invalid operation")` default branch is unreachable. -/
def Criterion.matches (c : Criterion) (value : RVal) : Res Bool :=
  match compareValue value c.Value with
  | .err e => .err e
  | .fatal m => .fatal m
  | .ok result =>
    match c.Operation with
    | .eq => .ok (result = 0)
    | .ne => .ok (result ≠ 0)
    | .gt => .ok (result > 0)
    | .lt => .ok (result < 0)
    | .le => .ok (result < 0 || result = 0)
    | .ge => .ok (result > 0 || result = 0)

/-- The AND-group loop of `(*Query).match` (source lines 261-275): criteria
in order; a traversal or comparison error returns immediately; `andOk`
becomes false at the first false criterion and the loop `break`s, so the
loop is equivalent to this head-first recursion. -/
def evalAnds : List Criterion → Record → Res Bool
  | [], _ => .ok true
  | c :: cs, v =>
    match traverseFieldPathMap v c.FieldPath with
    | .err e => .err e
    | .fatal m => .fatal m
    | .ok fieldRes =>
      match c.matches fieldRes with
      | .err e => .err e
      | .fatal m => .fatal m
      | .ok true => evalAnds cs v
      | .ok false => .ok false

mutual

/-- `(*Query).match(v)` for a non-nil receiver (source lines 256-291):
AND-group first; if it holds return true without touching the
OR-alternatives; otherwise try the alternatives in order. -/
def Query.matches : Query → Record → Res Bool
  | .mk ands ors _ _, v =>
    match evalAnds ands v with
    | .err e => .err e
    | .fatal m => .fatal m
    | .ok true => .ok true
    | .ok false => evalOrs ors v

/-- The OR loop of `(*Query).match` (source lines 280-288): full recursive
match of each alternative in declaration order, stopping at the first true
or the first error; false with no error when all alternatives fail. -/
def evalOrs : List Query → Record → Res Bool
  | [], _ => .ok false
  | q :: qs, v =>
    match q.matches v with
    | .err e => .err e
    | .fatal m => .fatal m
    | .ok true => .ok true
    | .ok false => evalOrs qs v

end

/-- The `(*Query).match` method as called on a possibly-nil pointer
receiver: a nil receiver hits `panic("query can't be nil")`
(source lines 257-259). -/
def matchPtr : Option Query → Record → Res Bool
  | none, _ => .fatal "query can't be nil"
  | some q, v => q.matches v

/-- One accumulated iterator result (declared in the repository's iterator
code, outside the verified sources): the record's deserialized mapping
plus its raw serialized payload (`[]byte`, modelled as `List Nat`). -/
structure MarshaledResult where
  MarshaledValue : Record
  Value : List Nat
  deriving Repr

/-- Modelled from the spec: the untyped three-way comparison `compare` used
by `Find`'s sort is declared elsewhere in the repository (not under the
sources verified here).  Per the spec (§4.4, §7) it is "a generic three-way
comparison across the same three value domains" as `compareValue`, erroring
(`none` here — `Find` only tests the error for non-nil-ness) on
cross-domain operands or an unsupported runtime type. -/
def compare : RVal → RVal → Option Int
  | .vstr a, .vstr b => some (stringsCompare a b)
  | .vbool a, .vbool b => some (if a = b then 0 else -1)
  | .vnum a, .vnum b => some (if a = b then 0 else if a < b then -1 else 1)
  | _, _ => none

/-- The two error flags captured by `Find`'s sort closure
(source line 218: `var wrongField, cantCompare bool`). -/
structure SortFlags where
  wrongField : Bool
  cantCompare : Bool
  deriving Repr, DecidableEq

/-- The `less(i, j)` closure passed to `sort.Slice` (source lines 219-239),
its captured flags threaded explicitly: traverse both operands (a failure
sets `wrongField` and answers false; the second operand is not traversed if
the first fails), compare (a failure sets `cantCompare` and answers false),
negate the result for descending order, and answer `res < 0`. -/
def sortLess (s : SortSpec) (vi vj : MarshaledResult) (fl : SortFlags) :
    Bool × SortFlags :=
  match traverseFieldPathMap vi.MarshaledValue s.FieldPath with
  | .ok fieldI =>
    match traverseFieldPathMap vj.MarshaledValue s.FieldPath with
    | .ok fieldJ =>
      match compare fieldI fieldJ with
      | some res => ((if s.Desc then -res else res) < 0, fl)
      | none => (false, { fl with cantCompare := true })
    | _ => (false, { fl with wrongField := true })
  | _ => (false, { fl with wrongField := true })

/-- One leftward swap walk of insertion sort, on the reversed sorted prefix
(head = rightmost element): keep swapping `x` past `p` while `less x p`. -/
def insRevS (less : α → α → σ → Bool × σ) (x : α) :
    List α → σ → List α × σ
  | [], st => ([x], st)
  | p :: rest, st =>
    let bs := less x p st
    if bs.1 then
      let rs := insRevS less x rest bs.2
      (p :: rs.1, rs.2)
    else (x :: p :: rest, bs.2)

/-- Insert `x` into the sorted prefix `acc` (normal order) by the rightward
scan of `insRevS`. -/
def insertGo (less : α → α → σ → Bool × σ) (acc : List α) (x : α) (st : σ) :
    List α × σ :=
  let rs := insRevS less x acc.reverse st
  (rs.1.reverse, rs.2)

/-- Modelled from the spec: `sort.Slice` (Go standard library, not part of
this repository) performing the spec's "total-order sort over the
accumulated matches using pairwise comparison" is modelled as the classic
insertion sort Go itself runs on short slices: each element in turn is
inserted into the sorted prefix by swapping leftward while
`less(element, predecessor)`; the closure's flag state is threaded through
the comparisons in call order.  A slice of length 0 or 1 performs no
comparison at all. -/
def sortSliceModel (less : α → α → σ → Bool × σ) (l : List α) (st : σ) :
    List α × σ :=
  l.foldl (fun p x => insertGo less p.1 x p.2) ([], st)

/-- The zero-value `Query{}` substituted for a nil query by `Find`. -/
def emptyQuery : Query := .mk [] [] ⟨"", false⟩ ""

/-- `(*Txn).Find` from the accumulation point on (source lines 196-199 and
217-253): the transaction, iterator and match-driven accumulation
(lines 200-215) belong to the external storage collaborators, so the
accumulated `values` are taken as input.  A nil query is normalized to the
zero query; if a sort field is set the accumulated results are sorted by
the `sortLess` closure, then `wrongField` aborts with
`ErrInvalidSortingField` (and a nil result), then `cantCompare` panics;
otherwise the raw payloads are returned in final order. -/
def Find (q : Option Query) (values : List MarshaledResult) :
    Res (List (List Nat)) :=
  let q := match q with
    | none => emptyQuery
    | some q0 => q0
  if q.sortBy.FieldPath ≠ "" then
    let sf := sortSliceModel (sortLess q.sortBy) values ⟨false, false⟩
    if sf.2.wrongField then .err .invalidSortingField
    else if sf.2.cantCompare then .fatal "can't compare while sorting"
    else .ok (sf.1.map (·.Value))
  else .ok (values.map (·.Value))

/-- `createValue`'s `interface{}` argument: the operand forms the builder
distinguishes — the three scalar types, pointers to them (a Go pointer is
`Option`-like: possibly nil), and any other dynamic type. -/
inductive Operand where
  | ostr (s : String)
  | obool (b : Bool)
  | ofloat (f : Rat)
  | opstr (p : Option String)
  | opbool (p : Option Bool)
  | opfloat (p : Option Rat)
  | oother (tag : String)
  deriving Repr, DecidableEq

/-- `createValue(value)` (source lines 157-183): type-switch in source
order; a pointer operand's (possibly nil) target is stored directly; any
other type yields the empty `Value{}`. -/
def createValue : Operand → Value
  | .ostr s => ⟨some s, none, none⟩
  | .obool b => ⟨none, some b, none⟩
  | .ofloat f => ⟨none, none, some f⟩
  | .opstr p => ⟨p, none, none⟩
  | .opbool p => ⟨none, p, none⟩
  | .opfloat p => ⟨none, none, p⟩
  | .oother _ => ⟨none, none, none⟩

/-- `(*Criterion).createcriterion(op, value)` restricted to the criterion it
finalizes (source lines 185-193; the append of the criterion onto its
owning query's AND-group is builder plumbing over the back pointer). -/
def createcriterion (fieldPath : String) (op : Operation) (value : Operand) :
    Criterion :=
  ⟨fieldPath, op, createValue value⟩

/-! ## Helper lemmas on the evaluator -/

/-- The AND loop over an appended list runs the first part and continues
into the second only while every criterion held. -/
theorem evalAnds_append (xs ys : List Criterion) (v : Record) :
    evalAnds (xs ++ ys) v =
      match evalAnds xs v with
      | .ok true => evalAnds ys v
      | .ok false => .ok false
      | .err e => .err e
      | .fatal m => .fatal m := by
  induction xs with
  | nil => simp [evalAnds]
  | cons c cs ih =>
    simp only [List.cons_append, evalAnds]
    cases traverseFieldPathMap v c.FieldPath with
    | ok fv =>
      cases h : c.matches fv with
      | ok b => cases b <;> simp [h, ih]
      | err e => simp [h]
      | fatal m => simp [h]
    | err e => simp
    | fatal m => simp

/-- If every OR-alternative matches to false, the OR loop answers false. -/
theorem evalOrs_all_false {ors : List Query} {v : Record}
    (h : ∀ q ∈ ors, q.matches v = .ok false) : evalOrs ors v = .ok false := by
  induction ors with
  | nil => rfl
  | cons q qs ih =>
    have hq := h q (List.mem_cons_self q qs)
    simp only [evalOrs, hq]
    exact ih fun p hp => h p (List.mem_cons_of_mem q hp)

/-! ## Claims -/

/-- **C1** (counterexample to the claim as stated): the `match` method
called on a nil query does not return true — it hits
`panic("query can't be nil")`. -/
theorem C1_counterexample_nil_query_panics :
    matchPtr none [] = .fatal "query can't be nil" ∧
    matchPtr none [] ≠ .ok true :=
  ⟨rfl, fun h => nomatch h⟩

/-- **C1** (amended): for every record and every empty query (no criterion
in its AND-group, no OR alternatives, arbitrary Sort and Index fields)
`match` returns true with no error; a nil query panics inside `match`
itself, but `Find` first normalizes nil to the zero query, which matches
every record, and `Find` on a nil query behaves exactly as on the zero
query. -/
theorem C1_empty_query_matches (s : SortSpec) (i : String) (v : Record)
    (values : List MarshaledResult) :
    Query.matches (.mk [] [] s i) v = .ok true ∧
    matchPtr (some emptyQuery) v = .ok true ∧
    Find none values = Find (some emptyQuery) values :=
  ⟨rfl, rfl, rfl⟩

/-- **C2**: the AND-group decides first — if it evaluates to true the whole
match is true with no look at the OR-alternatives (the conclusion holds for
every `ors`); if it evaluates to false, the match is exactly the OR loop,
which tries alternatives in declaration order, stops at the first true,
propagates the first error, and answers false (no error) when all
alternatives — possibly none — answer false. -/
theorem C2_and_group_first_then_ors (ands : List Criterion)
    (ors : List Query) (s : SortSpec) (i : String) (v : Record) :
    (evalAnds ands v = .ok true →
      Query.matches (.mk ands ors s i) v = .ok true) ∧
    (evalAnds ands v = .ok false →
      Query.matches (.mk ands ors s i) v = evalOrs ors v) ∧
    evalOrs [] v = .ok false ∧
    (∀ q qs, q.matches v = .ok true → evalOrs (q :: qs) v = .ok true) ∧
    (∀ q qs e, q.matches v = .err e → evalOrs (q :: qs) v = .err e) ∧
    (∀ q qs, q.matches v = .ok false → evalOrs (q :: qs) v = evalOrs qs v) ∧
    ((∀ q ∈ ors, q.matches v = .ok false) → evalAnds ands v = .ok false →
      Query.matches (.mk ands ors s i) v = .ok false) := by
  refine ⟨fun h => ?_, fun h => ?_, rfl, fun q qs h => ?_, fun q qs e h => ?_,
    fun q qs h => ?_, fun hall h => ?_⟩
  · simp [Query.matches, h]
  · simp [Query.matches, h]
  · simp [evalOrs, h]
  · simp [evalOrs, h]
  · simp [evalOrs, h]
  · simp [Query.matches, h, evalOrs_all_false hall]

/-- **C2** witness: a query whose AND-group holds answers true even when
its OR-alternative would error on the record (the alternative is not
evaluated); when the AND-group is false, the first true alternative
answers for the whole query. -/
theorem C2_and_group_first_then_ors_witness :
    Query.matches
      (.mk [⟨"a", .eq, ⟨some "x", none, none⟩⟩]
        [.mk [⟨"missing", .eq, ⟨some "x", none, none⟩⟩] [] ⟨"", false⟩ ""]
        ⟨"", false⟩ "") [("a", .vstr "x")] = .ok true ∧
    evalOrs
      [.mk [⟨"a", .eq, ⟨some "y", none, none⟩⟩] [] ⟨"", false⟩ "",
       .mk [⟨"a", .eq, ⟨some "x", none, none⟩⟩] [] ⟨"", false⟩ ""]
      [("a", .vstr "x")] = evalOrs
      [.mk [⟨"a", .eq, ⟨some "x", none, none⟩⟩] [] ⟨"", false⟩ ""]
      [("a", .vstr "x")] :=
  ⟨(C2_and_group_first_then_ors [⟨"a", .eq, ⟨some "x", none, none⟩⟩]
      [.mk [⟨"missing", .eq, ⟨some "x", none, none⟩⟩] [] ⟨"", false⟩ ""]
      ⟨"", false⟩ "" [("a", .vstr "x")]).1 rfl,
   (C2_and_group_first_then_ors [] [] ⟨"", false⟩ ""
      [("a", .vstr "x")]).2.2.2.2.2.1
      (.mk [⟨"a", .eq, ⟨some "y", none, none⟩⟩] [] ⟨"", false⟩ "")
      [.mk [⟨"a", .eq, ⟨some "x", none, none⟩⟩] [] ⟨"", false⟩ ""]
      (by simp only [Query.matches, evalOrs]; rfl)⟩

/-- **C3**: the AND-group short-circuits at the first criterion comparing
false — later criteria are neither traversed nor compared (the conclusion
holds for *every* `post`), so with no OR alternatives the query answers
false with no error even if a later criterion would error; conversely a
traversal failure on the criterion currently under evaluation is returned
as its field-not-found error immediately (again for every `post`). -/
theorem C3_and_short_circuit (pre : List Criterion) (c : Criterion)
    (post : List Criterion) (s : SortSpec) (i : String) (v : Record)
    (hpre : evalAnds pre v = .ok true) :
    (∀ fv, traverseFieldPathMap v c.FieldPath = .ok fv →
      c.matches fv = .ok false →
      Query.matches (.mk (pre ++ c :: post) [] s i) v = .ok false) ∧
    (∀ e, traverseFieldPathMap v c.FieldPath = .err e →
      Query.matches (.mk (pre ++ c :: post) [] s i) v = .err e) := by
  constructor
  · intro fv htrav hmatch
    simp [Query.matches, evalAnds_append, hpre, evalAnds, htrav, hmatch,
      evalOrs]
  · intro e htrav
    simp [Query.matches, evalAnds_append, hpre, evalAnds, htrav]

/-- **C3** witness: with `a = "1"` false on the record, the later criterion
on the absent field `"b"` is never evaluated and the query answers false
with no error; with the failing criterion first, its field-not-found error
is returned. -/
theorem C3_and_short_circuit_witness :
    Query.matches
      (.mk [⟨"a", .eq, ⟨some "1", none, none⟩⟩,
            ⟨"b", .eq, ⟨some "2", none, none⟩⟩] [] ⟨"", false⟩ "")
      [("a", .vstr "0")] = .ok false ∧
    Query.matches
      (.mk [⟨"b", .eq, ⟨some "2", none, none⟩⟩] [] ⟨"", false⟩ "")
      [("a", .vstr "0")]
      = .err (.fieldNotFound "b" [("a", .vstr "0")]) :=
  ⟨(C3_and_short_circuit [] ⟨"a", .eq, ⟨some "1", none, none⟩⟩
      [⟨"b", .eq, ⟨some "2", none, none⟩⟩] ⟨"", false⟩ ""
      [("a", .vstr "0")] rfl).1 (.vstr "0") rfl rfl,
   (C3_and_short_circuit [] ⟨"b", .eq, ⟨some "2", none, none⟩⟩ []
      ⟨"", false⟩ "" [("a", .vstr "0")] rfl).2
      (.fieldNotFound "b" [("a", .vstr "0")]) rfl⟩

/-- An error from `compareValue` is returned by `Criterion.match`
unchanged, whatever the operation. -/
theorem matches_err_of_compare_err {v : RVal} {cv : Value} {e : QErr}
    (fp : String) (op : Operation) (h : compareValue v cv = .err e) :
    Criterion.matches ⟨fp, op, cv⟩ v = .err e := by
  unfold Criterion.matches
  rw [h]

/-- A successful `compareValue` makes `Criterion.match` succeed, whatever
the operation. -/
theorem matches_ok_of_compare_ok {v : RVal} {cv : Value} {r : Int}
    (fp : String) (op : Operation) (h : compareValue v cv = .ok r) :
    ∃ res, Criterion.matches ⟨fp, op, cv⟩ v = .ok res := by
  unfold Criterion.matches
  rw [h]
  cases op <;> exact ⟨_, rfl⟩

/-- Same-domain comparison against a boolean criterion value succeeds. -/
theorem compareValue_bool_ok (x b : Bool) :
    ∃ r, compareValue (.vbool x) ⟨none, some b, none⟩ = .ok r := by
  cases b <;> cases x <;> exact ⟨_, rfl⟩

/-- Same-domain comparison against a float criterion value succeeds. -/
theorem compareValue_num_ok (x f : Rat) :
    ∃ r, compareValue (.vnum x) ⟨none, none, some f⟩ = .ok r := by
  by_cases h1 : x = f
  · exact ⟨0, by simp [compareValue, h1]⟩
  · by_cases h2 : x < f
    · exact ⟨-1, by simp [compareValue, h1, h2]⟩
    · exact ⟨1, by simp [compareValue, h1, h2]⟩

/-- **C4**: for each of the three criterion-value domains and every one of
the six operations, a record field whose runtime value lies outside the
populated variant's domain makes the criterion evaluate to the
type-mismatch error (never a panic, never a silent false), while a
same-domain field value makes the comparison succeed with no error. -/
theorem C4_domain_checked_comparison (fp : String) (op : Operation)
    (rv : RVal) (s : String) (b : Bool) (f : Rat) :
    ((∀ x, rv ≠ .vstr x) →
      Criterion.matches ⟨fp, op, ⟨some s, none, none⟩⟩ rv
        = .err (.typeMismatch rv ⟨some s, none, none⟩)) ∧
    (∀ x, ∃ res,
      Criterion.matches ⟨fp, op, ⟨some s, none, none⟩⟩ (.vstr x) = .ok res) ∧
    ((∀ x, rv ≠ .vbool x) →
      Criterion.matches ⟨fp, op, ⟨none, some b, none⟩⟩ rv
        = .err (.typeMismatch rv ⟨none, some b, none⟩)) ∧
    (∀ x, ∃ res,
      Criterion.matches ⟨fp, op, ⟨none, some b, none⟩⟩ (.vbool x) = .ok res) ∧
    ((∀ x, rv ≠ .vnum x) →
      Criterion.matches ⟨fp, op, ⟨none, none, some f⟩⟩ rv
        = .err (.typeMismatch rv ⟨none, none, some f⟩)) ∧
    (∀ x, ∃ res,
      Criterion.matches ⟨fp, op, ⟨none, none, some f⟩⟩ (.vnum x) = .ok res) := by
  refine ⟨fun h => ?_, fun x => ?_, fun h => ?_, fun x => ?_, fun h => ?_,
    fun x => ?_⟩
  · cases rv with
    | vstr x => exact absurd rfl (h x)
    | vbool x => exact matches_err_of_compare_err fp op rfl
    | vnum x => exact matches_err_of_compare_err fp op rfl
    | vmap m => exact matches_err_of_compare_err fp op rfl
    | vother t => exact matches_err_of_compare_err fp op rfl
  · exact matches_ok_of_compare_ok fp op rfl
  · cases rv with
    | vbool x => exact absurd rfl (h x)
    | vstr x => exact matches_err_of_compare_err fp op rfl
    | vnum x => exact matches_err_of_compare_err fp op rfl
    | vmap m => exact matches_err_of_compare_err fp op rfl
    | vother t => exact matches_err_of_compare_err fp op rfl
  · obtain ⟨r, hr⟩ := compareValue_bool_ok x b
    exact matches_ok_of_compare_ok fp op hr
  · cases rv with
    | vnum x => exact absurd rfl (h x)
    | vstr x => exact matches_err_of_compare_err fp op rfl
    | vbool x => exact matches_err_of_compare_err fp op rfl
    | vmap m => exact matches_err_of_compare_err fp op rfl
    | vother t => exact matches_err_of_compare_err fp op rfl
  · obtain ⟨r, hr⟩ := compareValue_num_ok x f
    exact matches_ok_of_compare_ok fp op hr

/-- **C4** witness: the spec's scenario — `Where("active").Eq(true)`
against `{"active": "yes"}` is a type-mismatch error, and against
`{"active": false}` the comparison succeeds. -/
theorem C4_domain_checked_comparison_witness :
    Criterion.matches ⟨"active", .eq, ⟨none, some true, none⟩⟩ (.vstr "yes")
      = .err (.typeMismatch (.vstr "yes") ⟨none, some true, none⟩) ∧
    (∃ res, Criterion.matches ⟨"active", .eq, ⟨none, some true, none⟩⟩
      (.vbool false) = .ok res) :=
  ⟨(C4_domain_checked_comparison "active" .eq (.vstr "yes") "x" true 0).2.2.1
      (fun x h => by cases h),
   (C4_domain_checked_comparison "active" .eq (.vstr "yes") "x" true 0).2.2.2.1
      false⟩

/-- **C7**: boolean three-way comparison is 0 on equal operands and the
fixed value -1 on unequal operands, whichever operand is `true`;
consequently `Eq` holds exactly on equal booleans and `Ne` exactly on
unequal ones. -/
theorem C7_bool_compare_fixed_sign (fp : String) (b c : Bool) :
    (b = c → compareValue (.vbool b) ⟨none, some c, none⟩ = .ok 0) ∧
    (b ≠ c → compareValue (.vbool b) ⟨none, some c, none⟩ = .ok (-1)) ∧
    Criterion.matches ⟨fp, .eq, ⟨none, some c, none⟩⟩ (.vbool b)
      = .ok (decide (b = c)) ∧
    Criterion.matches ⟨fp, .ne, ⟨none, some c, none⟩⟩ (.vbool b)
      = .ok (decide (b ≠ c)) := by
  cases b <;> cases c <;>
    refine ⟨fun h1 => ?_, fun h2 => ?_, ?_, ?_⟩ <;>
      first
        | rfl
        | exact absurd rfl h2
        | exact nomatch h1

/-- **C7** witness: concrete instances of both the equal and the unequal
case, in both operand orders — the unequal result is -1 both ways. -/
theorem C7_bool_compare_fixed_sign_witness :
    compareValue (.vbool true) ⟨none, some true, none⟩ = .ok 0 ∧
    compareValue (.vbool true) ⟨none, some false, none⟩ = .ok (-1) ∧
    compareValue (.vbool false) ⟨none, some true, none⟩ = .ok (-1) ∧
    Criterion.matches ⟨"f", .ne, ⟨none, some false, none⟩⟩ (.vbool true)
      = .ok true :=
  ⟨(C7_bool_compare_fixed_sign "f" true true).1 rfl,
   (C7_bool_compare_fixed_sign "f" true false).2.1 (fun h => nomatch h),
   (C7_bool_compare_fixed_sign "f" false true).2.1 (fun h => nomatch h),
   (C7_bool_compare_fixed_sign "f" true false).2.2.2⟩

/-- Spec-side restatement of §4.3 path resolution, to check the embedded
`traverseFieldPathMap` against the spec's own wording: fold over the
segments, at each one requiring the current node to be a mapping that
contains the segment key, descending to that key's value; the value after
the last segment is the result. -/
def specResolveSegs (segs : List String) (root : Record) : Option RVal :=
  segs.foldl
    (fun acc seg =>
      match acc with
      | some (.vmap m) => lookupField m seg
      | _ => none)
    (some (.vmap root))

/-- Once the spec-side fold has failed, it stays failed. -/
theorem specResolve_foldl_none (segs : List String) :
    segs.foldl
      (fun (acc : Option RVal) seg =>
        match acc with
        | some (.vmap m) => lookupField m seg
        | _ => none)
      none = none := by
  induction segs with
  | nil => rfl
  | cons g gs ih => exact ih

/-- The recursive descent of the source equals the spec-side fold. -/
theorem traverseSegs_eq_foldl (segs : List String) (curr : RVal) :
    segs.foldl
      (fun acc seg =>
        match acc with
        | some (.vmap m) => lookupField m seg
        | _ => none)
      (some curr) = traverseSegs curr segs := by
  induction segs generalizing curr with
  | nil => rfl
  | cons f fs ih =>
    cases curr with
    | vmap m =>
      simp only [List.foldl_cons, traverseSegs]
      cases lookupField m f with
      | some v => exact ih v
      | none => exact specResolve_foldl_none fs
    | vstr s =>
      simp only [List.foldl_cons, traverseSegs]
      exact specResolve_foldl_none fs
    | vbool b =>
      simp only [List.foldl_cons, traverseSegs]
      exact specResolve_foldl_none fs
    | vnum q =>
      simp only [List.foldl_cons, traverseSegs]
      exact specResolve_foldl_none fs
    | vother t =>
      simp only [List.foldl_cons, traverseSegs]
      exact specResolve_foldl_none fs

/-- **C8**: `traverseFieldPathMap` computes exactly the spec's split-then-
descend resolution of the dotted path, and its outcome is always either
the resolved leaf value or the one uniform field-does-not-exist error
carrying the full original path and the record — identical in form across
both failure kinds (non-mapping node, absent key) and all depths. -/
theorem C8_traverse_uniform (v : Record) (p : String) :
    (traverseFieldPathMap v p =
      match specResolveSegs (splitDot p.data) v with
      | some u => .ok u
      | none => .err (.fieldNotFound p v)) ∧
    ((∃ u, traverseFieldPathMap v p = .ok u) ∨
      traverseFieldPathMap v p = .err (.fieldNotFound p v)) := by
  constructor
  · unfold traverseFieldPathMap specResolveSegs
    rw [traverseSegs_eq_foldl]
  · unfold traverseFieldPathMap
    cases traverseSegs (.vmap v) (splitDot p.data) with
    | some u => exact Or.inl ⟨u, rfl⟩
    | none => exact Or.inr rfl

/-- **C10**: a typed nil pointer of an accepted operand type produces the
same all-variants-unset `Value` as a disallowed operand type, so a
criterion built from it reaches `compareValue`'s
`log.Fatalf("no underlying value for criterion was provided")` path on
every record value, instead of returning a typed error. -/
theorem C10_nil_pointer_operand (fp : String) (op : Operation) (rv : RVal)
    (t : String) :
    createValue (.opstr none) = ⟨none, none, none⟩ ∧
    createValue (.opbool none) = ⟨none, none, none⟩ ∧
    createValue (.opfloat none) = ⟨none, none, none⟩ ∧
    createValue (.opstr none) = createValue (.oother t) ∧
    compareValue rv ⟨none, none, none⟩
      = .fatal "no underlying value for criterion was provided" ∧
    (createcriterion fp op (.opstr none)).matches rv
      = .fatal "no underlying value for criterion was provided" :=
  ⟨rfl, rfl, rfl, rfl, rfl, rfl⟩

/-! ## The sort phase: comparison domains and order lemmas -/

/-- The three comparable scalar domains (spec §4.2/glossary). -/
inductive Dom where
  | dstr | dbool | dnum
  deriving Repr, DecidableEq

/-- The comparison domain of a runtime value, if it has one. -/
def domOf : RVal → Option Dom
  | .vstr _ => some .dstr
  | .vbool _ => some .dbool
  | .vnum _ => some .dnum
  | .vmap _ => none
  | .vother _ => none

/-- The sort key of an accumulated record under sort field path `f`. -/
def keyOf (f : String) (r : MarshaledResult) : Res RVal :=
  traverseFieldPathMap r.MarshaledValue f

/-- The boolean answer of the sort closure is independent of the flag
state, so the closure restricted to error-free calls is this pure
comparison. -/
def lessPure (s : SortSpec) (a b : MarshaledResult) : Bool :=
  (sortLess s a b ⟨false, false⟩).1

/-- Pure leftward swap walk on the reversed prefix (the error-free shadow
of `insRevS`). -/
def insRevP (lt : α → α → Bool) (x : α) : List α → List α
  | [] => [x]
  | p :: rest => if lt x p then p :: insRevP lt x rest else x :: p :: rest

/-- Pure insertion into a sorted prefix. -/
def insertP (lt : α → α → Bool) (acc : List α) (x : α) : List α :=
  (insRevP lt x acc.reverse).reverse

/-- Pure insertion sort (the error-free shadow of `sortSliceModel`). -/
def sortP (lt : α → α → Bool) (l : List α) : List α :=
  l.foldl (insertP lt) []

theorem charToNat_inj {a b : Char} (h : a.toNat = b.toNat) : a = b :=
  Char.eq_of_val_eq (UInt32.ext h)

theorem charListCompare_eq_zero_iff (x y : List Char) :
    charListCompare x y = 0 ↔ x = y := by
  induction x generalizing y with
  | nil => cases y <;> simp [charListCompare]
  | cons a as ih =>
    cases y with
    | nil => simp [charListCompare]
    | cons b bs =>
      by_cases hab : a = b
      · subst hab
        simp [charListCompare, ih]
      · have : ¬ (a :: as = b :: bs) := by simp [hab]
        simp only [charListCompare, if_neg hab, this, iff_false]
        split <;> omega

theorem charListCompare_neg (x y : List Char) :
    charListCompare y x = -charListCompare x y := by
  induction x generalizing y with
  | nil => cases y <;> simp [charListCompare]
  | cons a as ih =>
    cases y with
    | nil => simp [charListCompare]
    | cons b bs =>
      by_cases hab : a = b
      · subst hab
        simp [charListCompare, ih]
      · have hba : ¬ b = a := fun h => hab h.symm
        have hne : a.toNat ≠ b.toNat := fun h => hab (charToNat_inj h)
        simp only [charListCompare, if_neg hab, if_neg hba]
        rcases Nat.lt_trichotomy a.toNat b.toNat with h | h | h
        · rw [if_pos h, if_neg (Nat.lt_asymm h)]
          try rfl
        · exact absurd h hne
        · rw [if_neg (Nat.lt_asymm h), if_pos h]
          try rfl

theorem charListCompare_lt_trans {x y z : List Char}
    (h1 : charListCompare x y < 0) (h2 : charListCompare y z < 0) :
    charListCompare x z < 0 := by
  induction x generalizing y z with
  | nil =>
    cases z with
    | nil =>
      cases y with
      | nil => exact absurd h1 (by simp [charListCompare])
      | cons b bs => exact absurd h2 (by simp [charListCompare])
    | cons c cs => simp [charListCompare]
  | cons a as ih =>
    cases y with
    | nil => exact absurd h1 (by simp [charListCompare])
    | cons b bs =>
      cases z with
      | nil => exact absurd h2 (by simp [charListCompare])
      | cons c cs =>
        by_cases hab : a = b
        · subst hab
          by_cases hac : a = c
          · subst hac
            simp only [charListCompare, if_pos rfl] at h1 h2 ⊢
            exact ih h1 h2
          · simp only [charListCompare, if_pos rfl] at h1
            simp only [charListCompare, if_neg hac] at h2 ⊢
            exact h2
        · by_cases hbc : b = c
          · subst hbc
            simp only [charListCompare, if_neg hab] at h1 ⊢
            exact h1
          · simp only [charListCompare, if_neg hab] at h1
            simp only [charListCompare, if_neg hbc] at h2
            have hanb : a.toNat < b.toNat := by
              by_contra hle
              rw [if_neg hle] at h1
              omega
            have hbnc : b.toNat < c.toNat := by
              by_contra hle
              rw [if_neg hle] at h2
              omega
            have hac : a ≠ c := by
              intro h
              subst h
              exact absurd (Nat.lt_trans hanb hbnc) (Nat.lt_irrefl _)
            simp only [charListCompare, if_neg hac,
              if_pos (Nat.lt_trans hanb hbnc)]
            omega

/-- `compare` succeeds exactly on two values of one shared domain. -/
theorem compare_some_iff_dom (u w : RVal) :
    (∃ r, compare u w = some r) ↔
      ∃ d, domOf u = some d ∧ domOf w = some d := by
  cases u <;> cases w <;>
    simp [compare, domOf]

/-- A successful `compare` answers 0 exactly on equal values. -/
theorem compare_zero_iff {u w : RVal} {r : Int}
    (h : compare u w = some r) : r = 0 ↔ u = w := by
  cases u <;> cases w <;> simp only [compare, Option.some.injEq] at h <;>
    (try exact Option.noConfusion h)
  case vstr.vstr a b =>
    subst h
    simp only [stringsCompare, RVal.vstr.injEq]
    constructor
    · intro h0
      exact String.ext ((charListCompare_eq_zero_iff a.data b.data).mp h0)
    · intro h0
      exact (charListCompare_eq_zero_iff a.data b.data).mpr
        (congrArg String.data h0)
  case vbool.vbool a b =>
    subst h
    cases a <;> cases b <;> simp
  case vnum.vnum a b =>
    subst h
    by_cases hab : a = b
    · simp [hab]
    · rcases lt_or_gt_of_ne hab with hlt | hgt
      · simp [hab, hlt]
      · simp [hab, not_lt.mpr (le_of_lt hgt), hgt.ne]

/-- For a non-boolean domain, `compare` is antisymmetric.  (The boolean
domain is genuinely excluded: there the unequal answer is the fixed -1 in
both operand orders.) -/
theorem compare_antisym_nonbool {u w : RVal} {r : Int} {d : Dom}
    (hd : domOf u = some d) (hnb : d ≠ .dbool)
    (h : compare u w = some r) : compare w u = some (-r) := by
  cases u <;> cases w <;> simp only [compare, Option.some.injEq] at h <;>
    (try exact Option.noConfusion h)
  case vstr.vstr a b =>
    subst h
    simp only [compare, stringsCompare, Option.some.injEq]
    exact charListCompare_neg a.data b.data
  case vbool.vbool a b =>
    exact absurd (Option.some.inj hd).symm hnb
  case vnum.vnum a b =>
    subst h
    simp only [compare, Option.some.injEq]
    by_cases hab : a = b
    · simp [hab]
    · rcases lt_or_gt_of_ne hab with hlt | hgt
      · rw [if_neg hab, if_pos hlt, if_neg (fun h => hab h.symm),
          if_neg (not_lt.mpr (le_of_lt hlt))]
        try rfl
      · rw [if_neg hab, if_neg (not_lt.mpr (le_of_lt hgt)),
          if_neg (fun h => hab h.symm), if_pos hgt]
        try rfl

/-- For a non-boolean domain, strict `compare` outcomes are transitive. -/
theorem compare_lt_trans_nonbool {u v w : RVal} {r1 r2 : Int} {d : Dom}
    (hd : domOf u = some d) (hnb : d ≠ .dbool)
    (h1 : compare u v = some r1) (hr1 : r1 < 0)
    (h2 : compare v w = some r2) (hr2 : r2 < 0) :
    ∃ r3, compare u w = some r3 ∧ r3 < 0 := by
  cases u <;> cases v <;> simp only [compare, Option.some.injEq] at h1 <;>
    (try exact Option.noConfusion h1)
  case vstr.vstr a b =>
    cases w <;> simp only [compare, Option.some.injEq] at h2 <;>
      (try exact Option.noConfusion h2)
    case vstr c =>
      subst h1
      subst h2
      simp only [stringsCompare] at hr1 hr2
      exact ⟨_, rfl, charListCompare_lt_trans hr1 hr2⟩
  case vbool.vbool a b =>
    exact absurd (Option.some.inj hd).symm hnb
  case vnum.vnum a b =>
    cases w <;> simp only [compare, Option.some.injEq] at h2 <;>
      (try exact Option.noConfusion h2)
    case vnum c =>
      subst h1
      subst h2
      have hab : a < b := by
        by_cases h : a = b
        · rw [if_pos h] at hr1
          omega
        · by_cases h' : a < b
          · exact h'
          · rw [if_neg h, if_neg h'] at hr1
            omega
      have hbc : b < c := by
        by_cases h : b = c
        · rw [if_pos h] at hr2
          omega
        · by_cases h' : b < c
          · exact h'
          · rw [if_neg h, if_neg h'] at hr2
            omega
      have hac : a < c := lt_trans hab hbc
      refine ⟨-1, ?_, by omega⟩
      simp only [compare, Option.some.injEq]
      rw [if_neg (ne_of_lt hac), if_pos hac]

/-! ## The sort closure and its flag discipline -/

/-- The flag outcome of one `less` call, by the three cases of the closure:
both traversals succeed and the values compare (flags unchanged), they
compare not (`cantCompare` set), or a traversal fails (`wrongField` set). -/
theorem sortLess_snd (s : SortSpec) (a b : MarshaledResult)
    (fl : SortFlags) :
    (sortLess s a b fl).2 =
      match traverseFieldPathMap a.MarshaledValue s.FieldPath with
      | .ok ka =>
        match traverseFieldPathMap b.MarshaledValue s.FieldPath with
        | .ok kb =>
          match compare ka kb with
          | some _ => fl
          | none => { fl with cantCompare := true }
        | _ => { fl with wrongField := true }
      | _ => { fl with wrongField := true } := by
  cases ha : traverseFieldPathMap a.MarshaledValue s.FieldPath with
  | ok ka =>
    cases hb : traverseFieldPathMap b.MarshaledValue s.FieldPath with
    | ok kb =>
      cases hc : compare ka kb with
      | some r => simp [sortLess, ha, hb, hc]
      | none => simp [sortLess, ha, hb, hc]
    | err e => simp [sortLess, ha, hb]
    | fatal m => simp [sortLess, ha, hb]
  | err e => simp [sortLess, ha]
  | fatal m => simp [sortLess, ha]

/-- The boolean answer of one `less` call never depends on the flags. -/
theorem sortLess_fst (s : SortSpec) (a b : MarshaledResult)
    (fl : SortFlags) : (sortLess s a b fl).1 = lessPure s a b := by
  cases ha : traverseFieldPathMap a.MarshaledValue s.FieldPath with
  | ok ka =>
    cases hb : traverseFieldPathMap b.MarshaledValue s.FieldPath with
    | ok kb =>
      cases hc : compare ka kb with
      | some r => simp [lessPure, sortLess, ha, hb, hc]
      | none => simp [lessPure, sortLess, ha, hb, hc]
    | err e => simp [lessPure, sortLess, ha, hb]
    | fatal m => simp [lessPure, sortLess, ha, hb]
  | err e => simp [lessPure, sortLess, ha]
  | fatal m => simp [lessPure, sortLess, ha]

/-- On an error-free, comparable pair the closure is its pure shadow and
leaves the flags untouched. -/
theorem sortLess_of_ok {s : SortSpec} {a b : MarshaledResult}
    {ka kb : RVal} {r : Int} (fl : SortFlags)
    (ha : traverseFieldPathMap a.MarshaledValue s.FieldPath = .ok ka)
    (hb : traverseFieldPathMap b.MarshaledValue s.FieldPath = .ok kb)
    (hc : compare ka kb = some r) :
    sortLess s a b fl = (lessPure s a b, fl) := by
  simp [sortLess, lessPure, ha, hb, hc]

/-- A set `wrongField` flag stays set across one `less` call. -/
theorem sortLess_wrongField_mono {s : SortSpec} {a b : MarshaledResult}
    {fl : SortFlags} (h : fl.wrongField = true) :
    ((sortLess s a b fl).2).wrongField = true := by
  cases ha : traverseFieldPathMap a.MarshaledValue s.FieldPath with
  | ok ka =>
    cases hb : traverseFieldPathMap b.MarshaledValue s.FieldPath with
    | ok kb =>
      cases hc : compare ka kb with
      | some r => simp [sortLess_snd, ha, hb, hc, h]
      | none => simp [sortLess_snd, ha, hb, hc, h]
    | err e => simp [sortLess_snd, ha, hb]
    | fatal m => simp [sortLess_snd, ha, hb]
  | err e => simp [sortLess_snd, ha]
  | fatal m => simp [sortLess_snd, ha]

/-- A set `cantCompare` flag stays set across one `less` call. -/
theorem sortLess_cantCompare_mono {s : SortSpec} {a b : MarshaledResult}
    {fl : SortFlags} (h : fl.cantCompare = true) :
    ((sortLess s a b fl).2).cantCompare = true := by
  cases ha : traverseFieldPathMap a.MarshaledValue s.FieldPath with
  | ok ka =>
    cases hb : traverseFieldPathMap b.MarshaledValue s.FieldPath with
    | ok kb =>
      cases hc : compare ka kb with
      | some r => simp [sortLess_snd, ha, hb, hc, h]
      | none => simp [sortLess_snd, ha, hb, hc, h]
    | err e => simp [sortLess_snd, ha, hb, h]
    | fatal m => simp [sortLess_snd, ha, hb, h]
  | err e => simp [sortLess_snd, ha, h]
  | fatal m => simp [sortLess_snd, ha, h]

/-- If `wrongField` comes out clear of one `less` call it went in clear and
both operands' sort keys resolve. -/
theorem sortLess_wrongField_false {s : SortSpec} {a b : MarshaledResult}
    {fl : SortFlags} (h : ((sortLess s a b fl).2).wrongField = false) :
    fl.wrongField = false ∧
    (∃ ka, traverseFieldPathMap a.MarshaledValue s.FieldPath = .ok ka) ∧
    (∃ kb, traverseFieldPathMap b.MarshaledValue s.FieldPath = .ok kb) := by
  cases ha : traverseFieldPathMap a.MarshaledValue s.FieldPath with
  | ok ka =>
    cases hb : traverseFieldPathMap b.MarshaledValue s.FieldPath with
    | ok kb =>
      cases hc : compare ka kb with
      | some r =>
        simp only [sortLess_snd, ha, hb, hc] at h
        exact ⟨h, ⟨ka, rfl⟩, ⟨kb, rfl⟩⟩
      | none =>
        simp only [sortLess_snd, ha, hb, hc] at h
        exact ⟨h, ⟨ka, rfl⟩, ⟨kb, rfl⟩⟩
    | err e => simp [sortLess_snd, ha, hb] at h
    | fatal m => simp [sortLess_snd, ha, hb] at h
  | err e => simp [sortLess_snd, ha] at h
  | fatal m => simp [sortLess_snd, ha] at h

/-- If `cantCompare` comes out clear of one `less` call it went in clear,
and if both keys resolved then they compared. -/
theorem sortLess_cantCompare_false {s : SortSpec} {a b : MarshaledResult}
    {fl : SortFlags} (h : ((sortLess s a b fl).2).cantCompare = false) :
    fl.cantCompare = false ∧
    (∀ ka kb, traverseFieldPathMap a.MarshaledValue s.FieldPath = .ok ka →
      traverseFieldPathMap b.MarshaledValue s.FieldPath = .ok kb →
      ∃ r, compare ka kb = some r) := by
  cases ha : traverseFieldPathMap a.MarshaledValue s.FieldPath with
  | ok ka =>
    cases hb : traverseFieldPathMap b.MarshaledValue s.FieldPath with
    | ok kb =>
      cases hc : compare ka kb with
      | some r =>
        simp only [sortLess_snd, ha, hb, hc] at h
        refine ⟨h, fun ka2 kb2 hka2 hkb2 => ?_⟩
        cases Res.ok.inj hka2
        cases Res.ok.inj hkb2
        exact ⟨r, hc⟩
      | none => simp [sortLess_snd, ha, hb, hc] at h
    | err e =>
      simp only [sortLess_snd, ha, hb] at h
      exact ⟨h, fun ka2 kb2 hka2 hkb2 => Res.noConfusion hkb2⟩
    | fatal m =>
      simp only [sortLess_snd, ha, hb] at h
      exact ⟨h, fun ka2 kb2 hka2 hkb2 => Res.noConfusion hkb2⟩
  | err e =>
    simp only [sortLess_snd, ha] at h
    exact ⟨h, fun ka2 kb2 hka2 hkb2 => Res.noConfusion hka2⟩
  | fatal m =>
    simp only [sortLess_snd, ha] at h
    exact ⟨h, fun ka2 kb2 hka2 hkb2 => Res.noConfusion hka2⟩

/-! ## The insertion walk and the whole sort -/

/-- The walk inserts exactly its element. -/
theorem insRevS_fst_perm (less : α → α → σ → Bool × σ) (x : α) :
    ∀ (r : List α) (st : σ), ((insRevS less x r st).1).Perm (x :: r) := by
  intro r
  induction r with
  | nil => intro st; exact List.Perm.refl _
  | cons p rest ih =>
    intro st
    simp only [insRevS]
    by_cases hb : (less x p st).1
    · rw [if_pos hb]
      exact ((ih _).cons p).trans (List.Perm.swap x p rest)
    · rw [if_neg hb]

/-- One Go insertion step inserts exactly its element. -/
theorem insertGo_fst_perm (less : α → α → σ → Bool × σ) (acc : List α)
    (x : α) (st : σ) : ((insertGo less acc x st).1).Perm (x :: acc) := by
  unfold insertGo
  exact (List.reverse_perm _).trans
    ((insRevS_fst_perm less x acc.reverse st).trans
      ((List.reverse_perm acc).cons x))

/-- The sorted output is a permutation of the input. -/
theorem foldl_insertGo_perm (less : α → α → σ → Bool × σ) :
    ∀ (l acc : List α) (st : σ),
      ((l.foldl (fun p x => insertGo less p.1 x p.2) (acc, st)).1).Perm
        (acc ++ l) := by
  intro l
  induction l with
  | nil => intro acc st; simp
  | cons x xs ih =>
    intro acc st
    simp only [List.foldl_cons]
    have h1 := ih (insertGo less acc x st).1 (insertGo less acc x st).2
    exact (h1.trans
      (((insertGo_fst_perm less acc x st).append_right xs).trans
        List.perm_middle.symm))

/-- `sort.Slice` output is a permutation of its input. -/
theorem sortSlice_fst_perm (less : α → α → σ → Bool × σ) (l : List α)
    (st : σ) : ((sortSliceModel less l st).1).Perm l := by
  simpa using foldl_insertGo_perm less l [] st

/-- `wrongField`, once set, survives a whole insertion walk. -/
theorem insRevS_wrongField_mono {s : SortSpec} {x : MarshaledResult} :
    ∀ {r : List MarshaledResult} {st : SortFlags}, st.wrongField = true →
      ((insRevS (sortLess s) x r st).2).wrongField = true := by
  intro r
  induction r with
  | nil => intro st h; exact h
  | cons p rest ih =>
    intro st h
    simp only [insRevS]
    by_cases hb : (sortLess s x p st).1
    · rw [if_pos hb]
      exact ih (sortLess_wrongField_mono h)
    · rw [if_neg hb]
      exact sortLess_wrongField_mono h

/-- `cantCompare`, once set, survives a whole insertion walk. -/
theorem insRevS_cantCompare_mono {s : SortSpec} {x : MarshaledResult} :
    ∀ {r : List MarshaledResult} {st : SortFlags}, st.cantCompare = true →
      ((insRevS (sortLess s) x r st).2).cantCompare = true := by
  intro r
  induction r with
  | nil => intro st h; exact h
  | cons p rest ih =>
    intro st h
    simp only [insRevS]
    by_cases hb : (sortLess s x p st).1
    · rw [if_pos hb]
      exact ih (sortLess_cantCompare_mono h)
    · rw [if_neg hb]
      exact sortLess_cantCompare_mono h

/-- If `wrongField` is clear after a non-trivial walk, it was clear after
the walk's first comparison in particular. -/
theorem insRevS_head_wrongField_false {s : SortSpec}
    {x p : MarshaledResult} {rest : List MarshaledResult} {st : SortFlags}
    (h : ((insRevS (sortLess s) x (p :: rest) st).2).wrongField = false) :
    ((sortLess s x p st).2).wrongField = false := by
  cases hwf : ((sortLess s x p st).2).wrongField with
  | false => rfl
  | true =>
    exfalso
    simp only [insRevS] at h
    by_cases hb : (sortLess s x p st).1
    · rw [if_pos hb] at h
      rw [insRevS_wrongField_mono hwf] at h
      exact Bool.noConfusion h
    · rw [if_neg hb] at h
      rw [hwf] at h
      exact Bool.noConfusion h

/-- If `cantCompare` is clear after a non-trivial walk, it was clear after
the walk's first comparison in particular. -/
theorem insRevS_head_cantCompare_false {s : SortSpec}
    {x p : MarshaledResult} {rest : List MarshaledResult} {st : SortFlags}
    (h : ((insRevS (sortLess s) x (p :: rest) st).2).cantCompare = false) :
    ((sortLess s x p st).2).cantCompare = false := by
  cases hwf : ((sortLess s x p st).2).cantCompare with
  | false => rfl
  | true =>
    exfalso
    simp only [insRevS] at h
    by_cases hb : (sortLess s x p st).1
    · rw [if_pos hb] at h
      rw [insRevS_cantCompare_mono hwf] at h
      exact Bool.noConfusion h
    · rw [if_neg hb] at h
      rw [hwf] at h
      exact Bool.noConfusion h

/-- A comparison whose two operands' keys resolve leaves `wrongField`
untouched. -/
theorem sortLess_wrongField_keys_ok {s : SortSpec}
    {a b : MarshaledResult} {fl : SortFlags} {ka kb : RVal}
    (ha : traverseFieldPathMap a.MarshaledValue s.FieldPath = .ok ka)
    (hb : traverseFieldPathMap b.MarshaledValue s.FieldPath = .ok kb) :
    ((sortLess s a b fl).2).wrongField = fl.wrongField := by
  cases hc : compare ka kb with
  | some r => simp [sortLess_snd, ha, hb, hc]
  | none => simp [sortLess_snd, ha, hb, hc]

/-- A walk whose element and prefix all have resolving keys leaves
`wrongField` untouched. -/
theorem insRevS_wrongField_stable {s : SortSpec} {x : MarshaledResult}
    {kx : RVal}
    (hx : traverseFieldPathMap x.MarshaledValue s.FieldPath = .ok kx) :
    ∀ {r : List MarshaledResult} {st : SortFlags},
      (∀ p ∈ r, ∃ kp, traverseFieldPathMap p.MarshaledValue s.FieldPath
        = .ok kp) →
      ((insRevS (sortLess s) x r st).2).wrongField = st.wrongField := by
  intro r
  induction r with
  | nil => intro st _; rfl
  | cons p rest ih =>
    intro st hall
    obtain ⟨kp, hkp⟩ := hall p (List.mem_cons_self p rest)
    simp only [insRevS]
    by_cases hb : (sortLess s x p st).1
    · rw [if_pos hb]
      rw [ih (fun q hq => hall q (List.mem_cons_of_mem p hq))]
      exact sortLess_wrongField_keys_ok hx hkp
    · rw [if_neg hb]
      exact sortLess_wrongField_keys_ok hx hkp

/-- A walk over a same-domain, fully-resolving prefix is the pure walk and
leaves the flags untouched. -/
theorem insRevS_pure {s : SortSpec} {x : MarshaledResult} {kx : RVal}
    {d : Dom}
    (hx : traverseFieldPathMap x.MarshaledValue s.FieldPath = .ok kx)
    (hdx : domOf kx = some d) :
    ∀ {r : List MarshaledResult} {st : SortFlags},
      (∀ p ∈ r, ∃ kp, traverseFieldPathMap p.MarshaledValue s.FieldPath
        = .ok kp ∧ domOf kp = some d) →
      insRevS (sortLess s) x r st = (insRevP (lessPure s) x r, st) := by
  intro r
  induction r with
  | nil => intro st _; rfl
  | cons p rest ih =>
    intro st hall
    obtain ⟨kp, hkp, hdp⟩ := hall p (List.mem_cons_self p rest)
    obtain ⟨r0, hr0⟩ := (compare_some_iff_dom kx kp).mpr ⟨d, hdx, hdp⟩
    have hcall := sortLess_of_ok st hx hkp hr0
    simp only [insRevS, insRevP, hcall]
    by_cases hb : lessPure s x p
    · rw [if_pos hb, if_pos hb,
        ih (fun q hq => hall q (List.mem_cons_of_mem p hq))]
    · rw [if_neg hb, if_neg hb]

/-- All sort keys of a list of accumulated records resolve. -/
def AllKeysOk (f : String) (l : List MarshaledResult) : Prop :=
  ∀ p ∈ l, ∃ k, traverseFieldPathMap p.MarshaledValue f = .ok k

/-- All sort keys of a list resolve into one common domain `d`. -/
def SameDomOk (f : String) (d : Dom) (l : List MarshaledResult) : Prop :=
  ∀ p ∈ l, ∃ k, traverseFieldPathMap p.MarshaledValue f = .ok k ∧
    domOf k = some d

/-- The C5 invariant of the running sort: while `wrongField` is clear, the
prefix is trivial (at most one element, hence never compared) or all its
keys resolve. -/
def WrongInv (s : SortSpec) (acc : List MarshaledResult)
    (st : SortFlags) : Prop :=
  st.wrongField = false → acc.length ≤ 1 ∨ AllKeysOk s.FieldPath acc

/-- The C6 invariant of the running sort: while both flags are clear, the
prefix is trivial or all its keys resolve into one common domain. -/
def DomInv (s : SortSpec) (acc : List MarshaledResult)
    (st : SortFlags) : Prop :=
  st.wrongField = false → st.cantCompare = false →
    acc.length ≤ 1 ∨ ∃ d, SameDomOk s.FieldPath d acc

theorem insertGo_snd_eq (less : α → α → σ → Bool × σ) (acc : List α)
    (x : α) (st : σ) :
    (insertGo less acc x st).2 = (insRevS less x acc.reverse st).2 := rfl

/-- One insertion preserves the C5 invariant. -/
theorem insertGo_wrong_inv {s : SortSpec} {acc : List MarshaledResult}
    {x : MarshaledResult} {st : SortFlags} (hinv : WrongInv s acc st) :
    WrongInv s (insertGo (sortLess s) acc x st).1
      (insertGo (sortLess s) acc x st).2 := by
  intro hwf
  rw [insertGo_snd_eq] at hwf
  cases hrev : acc.reverse with
  | nil =>
    have hacc : acc = [] := List.reverse_eq_nil_iff.mp hrev
    subst hacc
    left
    rfl
  | cons p rest =>
    rw [hrev] at hwf
    have hhead := insRevS_head_wrongField_false hwf
    obtain ⟨hst, ⟨kx, hkx⟩, ⟨kp, hkp⟩⟩ := sortLess_wrongField_false hhead
    have hpacc : p ∈ acc := by
      rw [← List.mem_reverse, hrev]
      exact List.mem_cons_self p rest
    have hallacc : AllKeysOk s.FieldPath acc := by
      rcases hinv hst with hlen | hall
      · intro q hq
        have : acc = [p] := by
          cases acc with
          | nil => cases hpacc
          | cons a t =>
            cases t with
            | nil =>
              cases hpacc with
              | head => rfl
              | tail _ h => cases h
            | cons b u => simp at hlen
        rw [this] at hq
        cases hq with
        | head => exact ⟨kp, hkp⟩
        | tail _ h => cases h
      · exact hall
    right
    intro q hq
    have hmem := (insertGo_fst_perm (sortLess s) acc x st).mem_iff.mp hq
    cases hmem with
    | head => exact ⟨kx, hkx⟩
    | tail _ h => exact hallacc q h

/-- One insertion preserves the C6 invariant (given the C5 one). -/
theorem insertGo_dom_inv {s : SortSpec} {acc : List MarshaledResult}
    {x : MarshaledResult} {st : SortFlags} (hinv : DomInv s acc st) :
    DomInv s (insertGo (sortLess s) acc x st).1
      (insertGo (sortLess s) acc x st).2 := by
  intro hwf hcc
  rw [insertGo_snd_eq] at hwf hcc
  cases hrev : acc.reverse with
  | nil =>
    have hacc : acc = [] := List.reverse_eq_nil_iff.mp hrev
    subst hacc
    left
    rfl
  | cons p rest =>
    rw [hrev] at hwf hcc
    have hheadw := insRevS_head_wrongField_false hwf
    have hheadc := insRevS_head_cantCompare_false hcc
    obtain ⟨hstw, ⟨kx, hkx⟩, ⟨kp, hkp⟩⟩ := sortLess_wrongField_false hheadw
    obtain ⟨hstc, hcmp⟩ := sortLess_cantCompare_false hheadc
    obtain ⟨r0, hr0⟩ := hcmp kx kp hkx hkp
    obtain ⟨d0, hdx, hdp⟩ := (compare_some_iff_dom kx kp).mp ⟨r0, hr0⟩
    have hpacc : p ∈ acc := by
      rw [← List.mem_reverse, hrev]
      exact List.mem_cons_self p rest
    have hsame : SameDomOk s.FieldPath d0 acc := by
      rcases hinv hstw hstc with hlen | ⟨d, hall⟩
      · intro q hq
        have : acc = [p] := by
          cases acc with
          | nil => cases hpacc
          | cons a t =>
            cases t with
            | nil =>
              cases hpacc with
              | head => rfl
              | tail _ h => cases h
            | cons b u => simp at hlen
        rw [this] at hq
        cases hq with
        | head => exact ⟨kp, hkp, hdp⟩
        | tail _ h => cases h
      · obtain ⟨k1, hk1, hd1⟩ := hall p hpacc
        rw [hkp] at hk1
        cases Res.ok.inj hk1
        rw [hdp] at hd1
        cases Option.some.inj hd1
        intro q hq
        exact hall q hq
    right
    refine ⟨d0, fun q hq => ?_⟩
    have hmem := (insertGo_fst_perm (sortLess s) acc x st).mem_iff.mp hq
    cases hmem with
    | head => exact ⟨kx, hkx, hdx⟩
    | tail _ h => exact hsame q h

/-- The C5 invariant holds of the final sorted list and flags. -/
theorem foldl_wrong_inv {s : SortSpec} :
    ∀ (l acc : List MarshaledResult) (st : SortFlags),
      WrongInv s acc st →
      WrongInv s
        ((l.foldl (fun p x => insertGo (sortLess s) p.1 x p.2) (acc, st)).1)
        ((l.foldl (fun p x => insertGo (sortLess s) p.1 x p.2)
          (acc, st)).2) := by
  intro l
  induction l with
  | nil => intro acc st h; exact h
  | cons x xs ih =>
    intro acc st h
    simp only [List.foldl_cons]
    exact ih _ _ (insertGo_wrong_inv h)

/-- The C6 invariant holds of the final sorted list and flags. -/
theorem foldl_dom_inv {s : SortSpec} :
    ∀ (l acc : List MarshaledResult) (st : SortFlags),
      DomInv s acc st →
      DomInv s
        ((l.foldl (fun p x => insertGo (sortLess s) p.1 x p.2) (acc, st)).1)
        ((l.foldl (fun p x => insertGo (sortLess s) p.1 x p.2)
          (acc, st)).2) := by
  intro l
  induction l with
  | nil => intro acc st h; exact h
  | cons x xs ih =>
    intro acc st h
    simp only [List.foldl_cons]
    exact ih _ _ (insertGo_dom_inv h)

/-- When every key in sight resolves, the whole sort leaves `wrongField`
untouched. -/
theorem foldl_wrongField_stable {s : SortSpec} :
    ∀ (l acc : List MarshaledResult) (st : SortFlags),
      AllKeysOk s.FieldPath l → AllKeysOk s.FieldPath acc →
      ((l.foldl (fun p x => insertGo (sortLess s) p.1 x p.2)
        (acc, st)).2).wrongField = st.wrongField := by
  intro l
  induction l with
  | nil => intro acc st _ _; rfl
  | cons x xs ih =>
    intro acc st hl hacc
    obtain ⟨kx, hkx⟩ := hl x (List.mem_cons_self x xs)
    simp only [List.foldl_cons]
    rw [ih (insertGo (sortLess s) acc x st).1
      (insertGo (sortLess s) acc x st).2
      (fun q hq => hl q (List.mem_cons_of_mem x hq))
      (fun q hq => by
        have hmem := (insertGo_fst_perm (sortLess s) acc x st).mem_iff.mp hq
        cases hmem with
        | head => exact ⟨kx, hkx⟩
        | tail _ h => exact hacc q h)]
    rw [insertGo_snd_eq]
    exact insRevS_wrongField_stable hkx
      (fun q hq => hacc q (List.mem_reverse.mp hq))

/-- When every key in sight resolves into one domain, the whole sort is its
pure shadow and leaves the flags untouched. -/
theorem foldl_pure {s : SortSpec} {d : Dom} :
    ∀ (l acc : List MarshaledResult) (st : SortFlags),
      SameDomOk s.FieldPath d l → SameDomOk s.FieldPath d acc →
      l.foldl (fun p x => insertGo (sortLess s) p.1 x p.2) (acc, st) =
        (l.foldl (insertP (lessPure s)) acc, st) := by
  intro l
  induction l with
  | nil => intro acc st _ _; rfl
  | cons x xs ih =>
    intro acc st hl hacc
    obtain ⟨kx, hkx, hdx⟩ := hl x (List.mem_cons_self x xs)
    have hstep : insertGo (sortLess s) acc x st =
        (insertP (lessPure s) acc x, st) := by
      unfold insertGo insertP
      rw [insRevS_pure hkx hdx
        (fun q hq => hacc q (List.mem_reverse.mp hq))]
    simp only [List.foldl_cons, hstep]
    exact ih _ _ (fun q hq => hl q (List.mem_cons_of_mem x hq))
      (fun q hq => by
        have hmem : q ∈ insertP (lessPure s) acc x := hq
        have hperm : (insertP (lessPure s) acc x).Perm (x :: acc) := by
          have := insertGo_fst_perm (sortLess s) acc x st
          rw [hstep] at this
          exact this
        cases hperm.mem_iff.mp hmem with
        | head => exact ⟨kx, hkx, hdx⟩
        | tail _ h => exact hacc q h)

/-- `Find` with a non-empty sort field runs the modelled `sort.Slice` and
checks `wrongField` before `cantCompare`. -/
theorem Find_sort (ands : List Criterion) (ors : List Query)
    (idx f : String) (d : Bool) (values : List MarshaledResult)
    (hf : f ≠ "") :
    Find (some (.mk ands ors ⟨f, d⟩ idx)) values =
      if (sortSliceModel (sortLess ⟨f, d⟩) values ⟨false, false⟩).2.wrongField
      then .err .invalidSortingField
      else if (sortSliceModel (sortLess ⟨f, d⟩) values
        ⟨false, false⟩).2.cantCompare
      then .fatal "can't compare while sorting"
      else .ok ((sortSliceModel (sortLess ⟨f, d⟩) values
        ⟨false, false⟩).1.map (·.Value)) := by
  unfold Find
  simp [Query.sortBy, hf]

/-- Two distinct positions force at least two elements. -/
theorem two_le_length_of_fin_ne {l : List α} {i j : Fin l.length}
    (hij : i ≠ j) : 2 ≤ l.length := by
  by_contra h
  push_neg at h
  apply hij
  have hi := i.isLt
  have hj := j.isLt
  apply Fin.ext
  omega

/-- **C5** (amended): when the sort field path is set and at least two
records were accumulated, a sort-key traversal failure on any accumulated
record makes `Find` return `ErrInvalidSortingField` with a nil result
sequence.  (With zero or one accumulated record the sort performs no
comparison, so the traversal failure goes unnoticed — see the
counterexample.) -/
theorem C5_sort_traversal_error (ands : List Criterion) (ors : List Query)
    (idx f : String) (d : Bool) (values : List MarshaledResult)
    (hf : f ≠ "") (hlen : 2 ≤ values.length)
    (hbad : ∃ r ∈ values, ∀ k,
      traverseFieldPathMap r.MarshaledValue f ≠ .ok k) :
    Find (some (.mk ands ors ⟨f, d⟩ idx)) values
      = .err .invalidSortingField := by
  obtain ⟨rb, hrbmem, hrbbad⟩ := hbad
  rw [Find_sort ands ors idx f d values hf]
  have hwf : (sortSliceModel (sortLess ⟨f, d⟩) values
      ⟨false, false⟩).2.wrongField = true := by
    by_contra hwf
    rw [Bool.not_eq_true] at hwf
    have hinv0 : WrongInv ⟨f, d⟩ [] ⟨false, false⟩ := fun _ => Or.inl
      (by simp)
    have hinv := foldl_wrong_inv values [] ⟨false, false⟩ hinv0
    unfold sortSliceModel at hwf
    rcases hinv hwf with hshort | hall
    · have hperm := foldl_insertGo_perm (sortLess ⟨f, d⟩) values []
        ⟨false, false⟩
      rw [hperm.length_eq] at hshort
      simp at hshort
      omega
    · have hperm := foldl_insertGo_perm (sortLess ⟨f, d⟩) values []
        ⟨false, false⟩
      have hrbin : rb ∈ (values.foldl
          (fun p x => insertGo (sortLess ⟨f, d⟩) p.1 x p.2)
          ([], ⟨false, false⟩)).1 :=
        hperm.mem_iff.mpr (by simpa using hrbmem)
      obtain ⟨k, hk⟩ := hall rb hrbin
      exact hrbbad k hk
  rw [hwf]
  simp

/-- **C5** counterexample to the claim as stated: with a single accumulated
record whose sort field does not resolve, the modelled `sort.Slice`
performs no comparison at all, the `wrongField` flag is never set, and
`Find` returns the record's payload with no error instead of
`ErrInvalidSortingField`. -/
theorem C5_counterexample_single_record :
    Find (some (.mk [] [] ⟨"age", false⟩ ""))
      [⟨[("x", .vbool true)], [7]⟩] = .ok [[7]] ∧
    (∀ k, traverseFieldPathMap [("x", .vbool true)] "age" ≠ .ok k) :=
  ⟨rfl, fun _ h => nomatch h⟩

/-- **C5** witness: with two accumulated records, one of which lacks the
sort field, `Find` returns `ErrInvalidSortingField`. -/
theorem C5_sort_traversal_error_witness :
    Find (some (.mk [] [] ⟨"age", false⟩ ""))
      [⟨[("age", .vnum 30)], [0]⟩, ⟨[("x", .vbool true)], [7]⟩]
      = .err .invalidSortingField :=
  C5_sort_traversal_error [] [] "" "age" false
    [⟨[("age", .vnum 30)], [0]⟩, ⟨[("x", .vbool true)], [7]⟩]
    (by decide) (by decide)
    ⟨⟨[("x", .vbool true)], [7]⟩,
      List.mem_cons_of_mem _ (List.mem_cons_self _ _),
      fun k h => nomatch h⟩

/-- **C6**: if every accumulated record's sort key resolves but two records
at distinct positions carry keys the untyped comparison cannot compare,
`Find` panics ("can't compare while sorting") rather than returning an
error; and this fatal outcome is reachable only with no traversal failure
recorded, because the `wrongField` check precedes the `cantCompare`
check. -/
theorem C6_sort_incomparable_panics (ands : List Criterion)
    (ors : List Query) (idx f : String) (d : Bool)
    (values : List MarshaledResult) (hf : f ≠ "")
    (hall : AllKeysOk f values)
    (i j : Fin values.length) (hij : i ≠ j) (ki kj : RVal)
    (hki : traverseFieldPathMap (values.get i).MarshaledValue f = .ok ki)
    (hkj : traverseFieldPathMap (values.get j).MarshaledValue f = .ok kj)
    (hcmp : compare ki kj = none) :
    Find (some (.mk ands ors ⟨f, d⟩ idx)) values
      = .fatal "can't compare while sorting" ∧
    (∀ (s' : SortSpec) (vs : List MarshaledResult),
      (sortSliceModel (sortLess s') vs ⟨false, false⟩).2.wrongField = true →
      ∀ m, Find (some (.mk ands ors s' idx)) vs ≠ .fatal m) := by
  constructor
  · rw [Find_sort ands ors idx f d values hf]
    have hwf : (sortSliceModel (sortLess ⟨f, d⟩) values
        ⟨false, false⟩).2.wrongField = false := by
      unfold sortSliceModel
      rw [foldl_wrongField_stable values [] ⟨false, false⟩ hall
        (fun p hp => nomatch hp)]
    have hcc : (sortSliceModel (sortLess ⟨f, d⟩) values
        ⟨false, false⟩).2.cantCompare = true := by
      by_contra hcc
      rw [Bool.not_eq_true] at hcc
      have hinv0 : DomInv ⟨f, d⟩ [] ⟨false, false⟩ := fun _ _ => Or.inl
        (by simp)
      have hinv := foldl_dom_inv values [] ⟨false, false⟩ hinv0
      unfold sortSliceModel at hwf hcc
      rcases hinv hwf hcc with hshort | ⟨d0, hdom⟩
      · have hperm := foldl_insertGo_perm (sortLess ⟨f, d⟩) values []
          ⟨false, false⟩
        rw [hperm.length_eq] at hshort
        simp at hshort
        have := two_le_length_of_fin_ne hij
        omega
      · have hperm := foldl_insertGo_perm (sortLess ⟨f, d⟩) values []
          ⟨false, false⟩
        have hmi : values.get i ∈ (values.foldl
            (fun p x => insertGo (sortLess ⟨f, d⟩) p.1 x p.2)
            ([], ⟨false, false⟩)).1 :=
          hperm.mem_iff.mpr (by simp [values.get_mem i])
        have hmj : values.get j ∈ (values.foldl
            (fun p x => insertGo (sortLess ⟨f, d⟩) p.1 x p.2)
            ([], ⟨false, false⟩)).1 :=
          hperm.mem_iff.mpr (by simp [values.get_mem j])
        obtain ⟨k1, hk1, hd1⟩ := hdom _ hmi
        obtain ⟨k2, hk2, hd2⟩ := hdom _ hmj
        rw [hki] at hk1
        cases Res.ok.inj hk1
        rw [hkj] at hk2
        cases Res.ok.inj hk2
        obtain ⟨r0, hr0⟩ := (compare_some_iff_dom ki kj).mpr ⟨d0, hd1, hd2⟩
        rw [hcmp] at hr0
        exact Option.noConfusion hr0
    rw [hwf, hcc]
    simp
  · intro s' vs hwrong m
    by_cases hpath : s'.FieldPath = ""
    · unfold Find
      cases s' with
      | mk fp dsc =>
        simp only at hpath
        subst hpath
        simp [Query.sortBy]
    · cases s' with
      | mk fp dsc =>
        rw [Find_sort ands ors idx fp dsc vs hpath]
        rw [hwrong]
        simp

/-- **C6** witness: two records whose sort keys resolve to a float and a
string — `Find` panics. -/
theorem C6_sort_incomparable_panics_witness :
    Find (some (.mk [] [] ⟨"age", false⟩ ""))
      [⟨[("age", .vnum 30)], [0]⟩, ⟨[("age", .vstr "y")], [7]⟩]
      = .fatal "can't compare while sorting" :=
  (C6_sort_incomparable_panics [] [] "" "age" false
    [⟨[("age", .vnum 30)], [0]⟩, ⟨[("age", .vstr "y")], [7]⟩]
    (by decide)
    (fun p hp => by
      cases hp with
      | head => exact ⟨.vnum 30, rfl⟩
      | tail _ h =>
        cases h with
        | head => exact ⟨.vstr "y", rfl⟩
        | tail _ h2 => cases h2)
    ⟨0, by decide⟩ ⟨1, by decide⟩ (by decide)
    (.vnum 30) (.vstr "y") rfl rfl rfl).1

/-! ## Order theory of the pure insertion sort -/

/-- Sorted accumulator: no element is `lt` a predecessor. -/
def SortedB (lt : α → α → Bool) (l : List α) : Prop :=
  List.Pairwise (fun a b => lt b a = false) l

/-- Sorted reversed accumulator. -/
def SortedRev (lt : α → α → Bool) (l : List α) : Prop :=
  List.Pairwise (fun a b => lt a b = false) l

theorem insRevP_perm (lt : α → α → Bool) (x : α) :
    ∀ (r : List α), (insRevP lt x r).Perm (x :: r) := by
  intro r
  induction r with
  | nil => exact List.Perm.refl _
  | cons p rest ih =>
    simp only [insRevP]
    by_cases hb : lt x p
    · rw [if_pos hb]
      exact (ih.cons p).trans (List.Perm.swap x p rest)
    · rw [if_neg hb]

theorem insertP_perm (lt : α → α → Bool) (acc : List α) (x : α) :
    (insertP lt acc x).Perm (x :: acc) := by
  unfold insertP
  exact (List.reverse_perm _).trans
    ((insRevP_perm lt x acc.reverse).trans ((List.reverse_perm acc).cons x))

theorem foldl_insertP_perm (lt : α → α → Bool) :
    ∀ (l acc : List α), (l.foldl (insertP lt) acc).Perm (acc ++ l) := by
  intro l
  induction l with
  | nil => intro acc; simp
  | cons x xs ih =>
    intro acc
    simp only [List.foldl_cons]
    exact ((ih (insertP lt acc x)).trans
      (((insertP_perm lt acc x).append_right xs).trans
        List.perm_middle.symm))

/-- The pure walk keeps the reversed accumulator sorted, for a strict total
order on the ambient list `L`. -/
theorem insRevP_sortedRev {lt : α → α → Bool} {L : List α}
    (hasym : ∀ a ∈ L, ∀ b ∈ L, lt a b = true → lt b a = false)
    (htot : ∀ a ∈ L, ∀ b ∈ L, a ≠ b → lt a b = true ∨ lt b a = true)
    (htrans : ∀ a ∈ L, ∀ b ∈ L, ∀ c ∈ L,
      lt a b = true → lt b c = true → lt a c = true)
    {x : α} (hx : x ∈ L) :
    ∀ {r : List α}, (∀ q ∈ r, q ∈ L) → x ∉ r → r.Nodup →
      SortedRev lt r → SortedRev lt (insRevP lt x r) := by
  intro r
  induction r with
  | nil =>
    intro _ _ _ _
    exact List.pairwise_singleton _ x
  | cons p rest ih =>
    intro hsub hnx hnd hsorted
    have hpL : p ∈ L := hsub p (List.mem_cons_self p rest)
    have hp_rest := (List.pairwise_cons.mp hsorted).1
    have hrest_sorted := (List.pairwise_cons.mp hsorted).2
    simp only [insRevP]
    by_cases hb : lt x p
    · rw [if_pos hb]
      refine List.pairwise_cons.mpr ⟨fun q hq => ?_, ?_⟩
      · rcases List.mem_cons.mp ((insRevP_perm lt x rest).mem_iff.mp hq)
          with hqx | hqrest
        · rw [hqx]
          exact hasym x hx p hpL hb
        · exact hp_rest q hqrest
      · exact ih (fun q hq => hsub q (List.mem_cons_of_mem p hq))
          (fun hc => hnx (List.mem_cons_of_mem p hc))
          (List.nodup_cons.mp hnd).2 hrest_sorted
    · rw [if_neg hb]
      refine List.pairwise_cons.mpr ⟨fun q hq => ?_, hsorted⟩
      cases hq with
      | head => exact Bool.not_eq_true _ ▸ (Bool.of_not_eq_true hb)
      | tail _ hqrest =>
        have hqL : q ∈ L := hsub q (List.mem_cons_of_mem p hqrest)
        have hxp : x ≠ p := fun hc => hnx (hc ▸ List.mem_cons_self p rest)
        have hpx : lt p x = true := by
          rcases htot x hx p hpL hxp with h1 | h1
          · exact absurd h1 hb
          · exact h1
        cases hxq : lt x q with
        | false => rfl
        | true =>
          have hpq : lt p q = true := htrans p hpL x hx q hqL hpx hxq
          rw [hp_rest q hqrest] at hpq
          exact Bool.noConfusion hpq

/-- One pure insertion keeps the accumulator sorted. -/
theorem insertP_sortedB {lt : α → α → Bool} {L : List α}
    (hasym : ∀ a ∈ L, ∀ b ∈ L, lt a b = true → lt b a = false)
    (htot : ∀ a ∈ L, ∀ b ∈ L, a ≠ b → lt a b = true ∨ lt b a = true)
    (htrans : ∀ a ∈ L, ∀ b ∈ L, ∀ c ∈ L,
      lt a b = true → lt b c = true → lt a c = true)
    {x : α} (hx : x ∈ L) {acc : List α} (hsub : ∀ q ∈ acc, q ∈ L)
    (hnx : x ∉ acc) (hnd : acc.Nodup) (hsorted : SortedB lt acc) :
    SortedB lt (insertP lt acc x) := by
  unfold insertP SortedB
  rw [← List.reverse_reverse (insRevP lt x acc.reverse)] at *
  rw [List.pairwise_reverse]
  rw [List.reverse_reverse]
  exact insRevP_sortedRev hasym htot htrans hx
    (fun q hq => hsub q (List.mem_reverse.mp hq))
    (fun hc => hnx (List.mem_reverse.mp hc))
    (List.nodup_reverse.mpr hnd)
    (by
      unfold SortedRev
      rw [show (fun a b => lt a b = false) = fun a b =>
        (fun u v => lt v u = false) b a from rfl]
      rw [← List.pairwise_reverse]
      simpa [SortedB] using hsorted)

/-- The pure insertion sort sorts, for a strict total order on `L`. -/
theorem foldl_insertP_sorted {lt : α → α → Bool} {L : List α}
    (hasym : ∀ a ∈ L, ∀ b ∈ L, lt a b = true → lt b a = false)
    (htot : ∀ a ∈ L, ∀ b ∈ L, a ≠ b → lt a b = true ∨ lt b a = true)
    (htrans : ∀ a ∈ L, ∀ b ∈ L, ∀ c ∈ L,
      lt a b = true → lt b c = true → lt a c = true) :
    ∀ (l acc : List α), (∀ q ∈ l, q ∈ L) → (∀ q ∈ acc, q ∈ L) →
      l.Nodup → acc.Nodup → (∀ q ∈ l, q ∉ acc) → SortedB lt acc →
      SortedB lt (l.foldl (insertP lt) acc) := by
  intro l
  induction l with
  | nil => intro acc _ _ _ _ _ h; exact h
  | cons x xs ih =>
    intro acc hl hacc hndl hndacc hdisj hsorted
    have hx : x ∈ L := hl x (List.mem_cons_self x xs)
    have hnx : x ∉ acc := hdisj x (List.mem_cons_self x xs)
    simp only [List.foldl_cons]
    refine ih (insertP lt acc x)
      (fun q hq => hl q (List.mem_cons_of_mem x hq))
      (fun q hq => ?_) (List.nodup_cons.mp hndl).2 ?_ (fun q hq => ?_) ?_
    · rcases List.mem_cons.mp ((insertP_perm lt acc x).mem_iff.mp hq)
        with h | h
      · rw [h]
        exact hx
      · exact hacc q h
    · exact ((insertP_perm lt acc x).nodup_iff).mpr
        (List.nodup_cons.mpr ⟨hnx, hndacc⟩)
    · intro hqin
      rcases List.mem_cons.mp ((insertP_perm lt acc x).mem_iff.mp hqin)
        with h | h
      · rw [h] at hq
        exact (List.nodup_cons.mp hndl).1 hq
      · exact hdisj q (List.mem_cons_of_mem x hq) h
    · exact insertP_sortedB hasym htot htrans hx hacc hnx hndacc hsorted

/-- Two sorted permutations of one another coincide, given totality of the
order on the ambient list. -/
theorem sortedB_unique {lt : α → α → Bool} {L : List α}
    (htot : ∀ a ∈ L, ∀ b ∈ L, a ≠ b → lt a b = true ∨ lt b a = true) :
    ∀ {l1 l2 : List α}, (∀ q ∈ l1, q ∈ L) → l1.Perm l2 →
      SortedB lt l1 → SortedB lt l2 → l1 = l2 := by
  intro l1
  induction l1 with
  | nil =>
    intro l2 _ hp _ _
    exact (hp.nil_eq).symm ▸ rfl
  | cons a t1 ih =>
    intro l2 hsub hp hs1 hs2
    cases l2 with
    | nil => exact absurd hp.symm.nil_eq (by simp)
    | cons b t2 =>
      by_cases hab : a = b
      · subst hab
        have ht := hp.cons_inv
        have := ih (fun q hq => hsub q (List.mem_cons_of_mem a hq)) ht
          (List.pairwise_cons.mp hs1).2 (List.pairwise_cons.mp hs2).2
        rw [this]
      · exfalso
        have haL : a ∈ L := hsub a (List.mem_cons_self a t1)
        have hain2 : a ∈ b :: t2 := hp.mem_iff.mp (List.mem_cons_self a t1)
        have hat2 : a ∈ t2 := by
          cases hain2 with
          | head => exact absurd rfl hab
          | tail _ h => exact h
        have hbin1 : b ∈ a :: t1 :=
          hp.symm.mem_iff.mp (List.mem_cons_self b t2)
        have hbt1 : b ∈ t1 := by
          cases hbin1 with
          | head => exact absurd rfl (fun hc => hab hc.symm)
          | tail _ h => exact h
        have hbL : b ∈ L := hsub b (List.mem_cons_of_mem a hbt1)
        have h1 : lt b a = false := (List.pairwise_cons.mp hs1).1 b hbt1
        have h2 : lt a b = false := (List.pairwise_cons.mp hs2).1 a hat2
        rcases htot a haL b hbL hab with h | h
        · rw [h2] at h
          exact Bool.noConfusion h
        · rw [h1] at h
          exact Bool.noConfusion h

/-- Reversal law for the pure insertion sort: sorting by the pointwise
flip of a strict total order yields the reverse of sorting by the order. -/
theorem sortP_flip_reverse {lt lt' : α → α → Bool} {L : List α}
    (hflip : ∀ a ∈ L, ∀ b ∈ L, lt' a b = lt b a)
    (hasym : ∀ a ∈ L, ∀ b ∈ L, lt a b = true → lt b a = false)
    (htot : ∀ a ∈ L, ∀ b ∈ L, a ≠ b → lt a b = true ∨ lt b a = true)
    (htrans : ∀ a ∈ L, ∀ b ∈ L, ∀ c ∈ L,
      lt a b = true → lt b c = true → lt a c = true)
    (hN : L.Nodup) :
    sortP lt' L = (sortP lt L).reverse := by
  have hasym' : ∀ a ∈ L, ∀ b ∈ L, lt' a b = true → lt' b a = false := by
    intro a ha b hb h
    rw [hflip a ha b hb] at h
    rw [hflip b hb a ha]
    exact hasym b hb a ha h
  have htot' : ∀ a ∈ L, ∀ b ∈ L, a ≠ b →
      lt' a b = true ∨ lt' b a = true := by
    intro a ha b hb hab
    rw [hflip a ha b hb, hflip b hb a ha]
    rcases htot a ha b hb hab with h | h
    · exact Or.inr h
    · exact Or.inl h
  have htrans' : ∀ a ∈ L, ∀ b ∈ L, ∀ c ∈ L,
      lt' a b = true → lt' b c = true → lt' a c = true := by
    intro a ha b hb c hc h1 h2
    rw [hflip a ha b hb] at h1
    rw [hflip b hb c hc] at h2
    rw [hflip a ha c hc]
    exact htrans c hc b hb a ha h2 h1
  have hA : (sortP lt L).Perm L := by
    simpa using foldl_insertP_perm lt L []
  have hD : (sortP lt' L).Perm L := by
    simpa using foldl_insertP_perm lt' L []
  have hsA : SortedB lt (sortP lt L) :=
    foldl_insertP_sorted hasym htot htrans L [] (fun q hq => hq)
      (fun q hq => nomatch hq) hN List.nodup_nil
      (fun q _ hq => nomatch hq) List.Pairwise.nil
  have hsD : SortedB lt' (sortP lt' L) :=
    foldl_insertP_sorted hasym' htot' htrans' L [] (fun q hq => hq)
      (fun q hq => nomatch hq) hN List.nodup_nil
      (fun q _ hq => nomatch hq) List.Pairwise.nil
  have hsArev : SortedB lt' (sortP lt L).reverse := by
    unfold SortedB
    rw [List.pairwise_reverse]
    refine List.Pairwise.imp_of_mem ?_ hsA
    intro a b ha hb hab
    rw [hflip a (hA.mem_iff.mp ha) b (hA.mem_iff.mp hb)]
    exact hab
  exact sortedB_unique htot' (fun q hq => hD.mem_iff.mp hq)
    (hD.trans (hA.symm.trans (List.reverse_perm _).symm)) hsD hsArev

/-! ## Putting the reversal law together -/

/-- Pure ascending comparison via the resolved keys. -/
theorem lessPure_asc {f : String} {a b : MarshaledResult} {ka kb : RVal}
    {r : Int}
    (ha : traverseFieldPathMap a.MarshaledValue f = .ok ka)
    (hb : traverseFieldPathMap b.MarshaledValue f = .ok kb)
    (hc : compare ka kb = some r) :
    lessPure ⟨f, false⟩ a b = decide (r < 0) := by
  simp [lessPure, sortLess, ha, hb, hc]

/-- Pure descending comparison via the resolved keys: the sign is
negated. -/
theorem lessPure_desc {f : String} {a b : MarshaledResult} {ka kb : RVal}
    {r : Int}
    (ha : traverseFieldPathMap a.MarshaledValue f = .ok ka)
    (hb : traverseFieldPathMap b.MarshaledValue f = .ok kb)
    (hc : compare ka kb = some r) :
    lessPure ⟨f, true⟩ a b = decide (0 < r) := by
  have : lessPure ⟨f, true⟩ a b = decide (-r < 0) := by
    simp [lessPure, sortLess, ha, hb, hc]
  rw [this, decide_eq_decide]
  omega

/-- Comparability is symmetric (same-domain in both orders). -/
theorem compare_some_symm {u w : RVal} {r : Int}
    (h : compare u w = some r) : ∃ r2, compare w u = some r2 := by
  obtain ⟨d, h1, h2⟩ := (compare_some_iff_dom u w).mp ⟨r, h⟩
  exact (compare_some_iff_dom w u).mpr ⟨d, h2, h1⟩

/-- Two accumulated records whose sort keys compare with a strictly
nonzero outcome (the claim's "pairwise comparable and pairwise distinct
under the three-way comparison"). -/
def PairCmp (f : String) (a b : MarshaledResult) : Prop :=
  ∀ ka kb, traverseFieldPathMap a.MarshaledValue f = .ok ka →
    traverseFieldPathMap b.MarshaledValue f = .ok kb →
    ∃ r, compare ka kb = some r ∧ r ≠ 0

theorem PairCmp_symm (f : String) : Symmetric (PairCmp f) := by
  intro a b hr kb ka hkb hka
  obtain ⟨r, hc, hr0⟩ := hr ka kb hka hkb
  obtain ⟨r2, hc2⟩ := compare_some_symm hc
  refine ⟨r2, hc2, fun h0 => ?_⟩
  exact hr0 ((compare_zero_iff hc).mpr ((compare_zero_iff hc2).mp h0).symm)

/-- A value of boolean domain is a boolean. -/
theorem dom_dbool_vbool {k : RVal} (h : domOf k = some .dbool) :
    ∃ b, k = .vbool b := by
  cases k with
  | vbool b => exact ⟨b, rfl⟩
  | vstr s => exact absurd (Option.some.inj h) (by simp)
  | vnum q => exact absurd (Option.some.inj h) (by simp)
  | vmap m => exact Option.noConfusion h
  | vother t => exact Option.noConfusion h

/-- There are no three pairwise-distinct values of boolean domain. -/
theorem three_distinct_not_bool {k0 k1 k2 : RVal}
    (hd0 : domOf k0 = some .dbool) (hd1 : domOf k1 = some .dbool)
    (hd2 : domOf k2 = some .dbool)
    (h01 : k0 ≠ k1) (h02 : k0 ≠ k2) (h12 : k1 ≠ k2) : False := by
  obtain ⟨b0, rfl⟩ := dom_dbool_vbool hd0
  obtain ⟨b1, rfl⟩ := dom_dbool_vbool hd1
  obtain ⟨b2, rfl⟩ := dom_dbool_vbool hd2
  cases b0 <;> cases b1 <;> cases b2 <;> simp_all

/-- Over a same-domain, non-boolean, fully-comparable list, the pure
descending comparison is the flip of the ascending one, and the ascending
one is a strict total order. -/
theorem lessPure_order {f : String} {d : Dom} {V : List MarshaledResult}
    (hnb : d ≠ .dbool) (hdom : SameDomOk f d V)
    (hsym : ∀ a ∈ V, ∀ b ∈ V, a ≠ b → PairCmp f a b) :
    (∀ a ∈ V, ∀ b ∈ V,
      lessPure ⟨f, true⟩ a b = lessPure ⟨f, false⟩ b a) ∧
    (∀ a ∈ V, ∀ b ∈ V, lessPure ⟨f, false⟩ a b = true →
      lessPure ⟨f, false⟩ b a = false) ∧
    (∀ a ∈ V, ∀ b ∈ V, a ≠ b → lessPure ⟨f, false⟩ a b = true ∨
      lessPure ⟨f, false⟩ b a = true) ∧
    (∀ a ∈ V, ∀ b ∈ V, ∀ c ∈ V, lessPure ⟨f, false⟩ a b = true →
      lessPure ⟨f, false⟩ b c = true → lessPure ⟨f, false⟩ a c = true) := by
  have key : ∀ a ∈ V, ∀ b ∈ V, ∃ ka kb r,
      traverseFieldPathMap a.MarshaledValue f = .ok ka ∧
      traverseFieldPathMap b.MarshaledValue f = .ok kb ∧
      domOf ka = some d ∧ domOf kb = some d ∧
      compare ka kb = some r ∧ compare kb ka = some (-r) := by
    intro a ha b hb
    obtain ⟨ka, hka, hda⟩ := hdom a ha
    obtain ⟨kb, hkb, hdb⟩ := hdom b hb
    obtain ⟨r, hr⟩ := (compare_some_iff_dom ka kb).mpr ⟨d, hda, hdb⟩
    exact ⟨ka, kb, r, hka, hkb, hda, hdb, hr,
      compare_antisym_nonbool hda hnb hr⟩
  refine ⟨?_, ?_, ?_, ?_⟩
  · intro a ha b hb
    obtain ⟨ka, kb, r, hka, hkb, hda, hdb, hr, hr2⟩ := key a ha b hb
    rw [lessPure_desc hka hkb hr, lessPure_asc hkb hka hr2,
      decide_eq_decide]
    omega
  · intro a ha b hb h
    obtain ⟨ka, kb, r, hka, hkb, hda, hdb, hr, hr2⟩ := key a ha b hb
    rw [lessPure_asc hka hkb hr] at h
    rw [lessPure_asc hkb hka hr2]
    simp only [decide_eq_true_eq] at h
    simp only [decide_eq_false_iff_not]
    omega
  · intro a ha b hb hab
    obtain ⟨ka, kb, r, hka, hkb, hda, hdb, hr, hr2⟩ := key a ha b hb
    obtain ⟨r', hr', hr0⟩ := hsym a ha b hb hab ka kb hka hkb
    rw [hr] at hr'
    cases Option.some.inj hr'
    rw [lessPure_asc hka hkb hr, lessPure_asc hkb hka hr2]
    rcases lt_trichotomy r 0 with h | h | h
    · left
      simpa using h
    · exact absurd h hr0
    · right
      simp only [decide_eq_true_eq]
      omega
  · intro a ha b hb c hc h1 h2
    obtain ⟨ka, kb, r1, hka, hkb, hda, hdb, hr1, _⟩ := key a ha b hb
    obtain ⟨kb', kc, r2, hkb', hkc, _, hdc, hr2, _⟩ := key b hb c hc
    rw [hkb] at hkb'
    cases Res.ok.inj hkb'
    rw [lessPure_asc hka hkb hr1] at h1
    rw [lessPure_asc hkb hkc hr2] at h2
    simp only [decide_eq_true_eq] at h1 h2
    obtain ⟨r3, hr3, hlt3⟩ :=
      compare_lt_trans_nonbool hda hnb hr1 h1 hr2 h2
    obtain ⟨ka2, kc2, r4, hka2, hkc2, _, _, hr4, _⟩ := key a ha c hc
    rw [hka] at hka2
    cases Res.ok.inj hka2
    rw [hkc] at hkc2
    cases Res.ok.inj hkc2
    rw [hr3] at hr4
    cases Option.some.inj hr4
    rw [lessPure_asc hka hkc hr3]
    simpa using hlt3

/-- The sort of exactly two comparable records: one comparison,
`less(second, first)`, decides the order; the flags stay clear. -/
theorem sortSlice_two {f : String} {dsc : Bool} {v0 v1 : MarshaledResult}
    {k0 k1 : RVal} {r10 : Int}
    (hk0 : traverseFieldPathMap v0.MarshaledValue f = .ok k0)
    (hk1 : traverseFieldPathMap v1.MarshaledValue f = .ok k1)
    (hc10 : compare k1 k0 = some r10) :
    sortSliceModel (sortLess ⟨f, dsc⟩) [v0, v1] ⟨false, false⟩ =
      (if lessPure ⟨f, dsc⟩ v1 v0 then [v1, v0] else [v0, v1],
        ⟨false, false⟩) := by
  have hcall : sortLess ⟨f, dsc⟩ v1 v0 ⟨false, false⟩ =
      (lessPure ⟨f, dsc⟩ v1 v0, ⟨false, false⟩) :=
    sortLess_of_ok _ hk1 hk0 hc10
  by_cases hb : lessPure ⟨f, dsc⟩ v1 v0
  · simp [sortSliceModel, insertGo, insRevS, hcall, hb]
  · simp [sortSliceModel, insertGo, insRevS, hcall, hb]

/-- **C9**: over accumulated records whose sort keys all resolve and are
pairwise comparable and pairwise distinct under the three-way comparison,
`Find` with a descending sort on `f` returns exactly the reverse of what
`Find` with an ascending sort on `f` returns. -/
theorem C9_desc_is_reverse_of_asc (ands : List Criterion)
    (ors : List Query) (idx f : String)
    (values : List MarshaledResult) (hf : f ≠ "")
    (hall : AllKeysOk f values)
    (hpw : values.Pairwise (PairCmp f)) :
    ∃ L, Find (some (.mk ands ors ⟨f, false⟩ idx)) values = .ok L ∧
      Find (some (.mk ands ors ⟨f, true⟩ idx)) values = .ok L.reverse := by
  have hsym : ∀ a ∈ values, ∀ b ∈ values, a ≠ b → PairCmp f a b :=
    fun a ha b hb hab => (hpw.forall (PairCmp_symm f)) ha hb hab
  have hnd : values.Nodup := by
    refine hpw.imp_of_mem ?_
    intro a b ha hb hab
    obtain ⟨ka, hka⟩ := hall a ha
    obtain ⟨kb, hkb⟩ := hall b hb
    obtain ⟨r, hc, hr0⟩ := hab ka kb hka hkb
    intro he
    rw [he] at hka
    rw [hka] at hkb
    cases Res.ok.inj hkb
    exact hr0 ((compare_zero_iff hc).mpr rfl)
  cases values with
  | nil =>
    refine ⟨[], ?_, ?_⟩ <;> rw [Find_sort ands ors idx f _ [] hf] <;> rfl
  | cons v0 rest0 =>
    cases rest0 with
    | nil =>
      refine ⟨[v0.Value], ?_, ?_⟩ <;>
        rw [Find_sort ands ors idx f _ [v0] hf] <;> rfl
    | cons v1 rest1 =>
      have hm0 : v0 ∈ v0 :: v1 :: rest1 := List.mem_cons_self _ _
      have hm1 : v1 ∈ v0 :: v1 :: rest1 :=
        List.mem_cons_of_mem _ (List.mem_cons_self _ _)
      obtain ⟨k0, hk0⟩ := hall v0 hm0
      obtain ⟨k1, hk1⟩ := hall v1 hm1
      have h01 : v0 ≠ v1 := by
        intro hc
        exact (List.nodup_cons.mp hnd).1 (hc ▸ List.mem_cons_self v1 rest1)
      obtain ⟨r01, hc01, hr01⟩ := hsym v0 hm0 v1 hm1 h01 k0 k1 hk0 hk1
      obtain ⟨d, hd0, hd1⟩ := (compare_some_iff_dom k0 k1).mp ⟨r01, hc01⟩
      have hdomall : SameDomOk f d (v0 :: v1 :: rest1) := by
        intro q hq
        obtain ⟨kq, hkq⟩ := hall q hq
        by_cases hq0 : v0 = q
        · refine ⟨kq, hkq, ?_⟩
          have hkq0 : kq = k0 := by
            rw [← hq0] at hkq
            rw [hk0] at hkq
            exact (Res.ok.inj hkq).symm
          rw [hkq0]
          exact hd0
        · obtain ⟨r', hc', _⟩ := hsym v0 hm0 q hq hq0 k0 kq hk0 hkq
          obtain ⟨d', hd0', hdq⟩ := (compare_some_iff_dom k0 kq).mp ⟨r', hc'⟩
          rw [hd0] at hd0'
          cases Option.some.inj hd0'
          exact ⟨kq, hkq, hdq⟩
      cases rest1 with
      | nil =>
        obtain ⟨r10, hc10⟩ := compare_some_symm hc01
        have hr10 : r10 ≠ 0 := fun h0 => hr01
          ((compare_zero_iff hc01).mpr ((compare_zero_iff hc10).mp h0).symm)
        have hsA : sortSliceModel (sortLess ⟨f, false⟩) [v0, v1]
            ⟨false, false⟩ = (if lessPure ⟨f, false⟩ v1 v0 then [v1, v0]
              else [v0, v1], ⟨false, false⟩) :=
          sortSlice_two hk0 hk1 hc10
        have hsD : sortSliceModel (sortLess ⟨f, true⟩) [v0, v1]
            ⟨false, false⟩ = (if lessPure ⟨f, true⟩ v1 v0 then [v1, v0]
              else [v0, v1], ⟨false, false⟩) :=
          sortSlice_two hk0 hk1 hc10
        rw [lessPure_asc hk1 hk0 hc10] at hsA
        rw [lessPure_desc hk1 hk0 hc10] at hsD
        rcases lt_or_gt_of_ne hr10 with hlt | hgt
        · rw [decide_eq_true hlt, if_pos rfl] at hsA
          rw [decide_eq_false (show ¬ (0 : Int) < r10 by omega),
            if_neg Bool.false_ne_true] at hsD
          refine ⟨[v1.Value, v0.Value], ?_, ?_⟩
          · rw [Find_sort ands ors idx f false [v0, v1] hf, hsA]
            rfl
          · rw [Find_sort ands ors idx f true [v0, v1] hf, hsD]
            rfl
        · rw [decide_eq_false (show ¬ r10 < 0 by omega),
            if_neg Bool.false_ne_true] at hsA
          rw [decide_eq_true hgt, if_pos rfl] at hsD
          refine ⟨[v0.Value, v1.Value], ?_, ?_⟩
          · rw [Find_sort ands ors idx f false [v0, v1] hf, hsA]
            rfl
          · rw [Find_sort ands ors idx f true [v0, v1] hf, hsD]
            rfl
      | cons v2 rest2 =>
        have hm2 : v2 ∈ v0 :: v1 :: v2 :: rest2 :=
          List.mem_cons_of_mem _ (List.mem_cons_of_mem _
            (List.mem_cons_self _ _))
        obtain ⟨k2, hk2, hd2⟩ := hdomall v2 hm2
        have h02 : v0 ≠ v2 := by
          intro hc
          apply (List.nodup_cons.mp hnd).1
          rw [hc]
          exact List.mem_cons_of_mem v1 (List.mem_cons_self v2 rest2)
        have h12 : v1 ≠ v2 := by
          intro hc
          apply (List.nodup_cons.mp (List.nodup_cons.mp hnd).2).1
          rw [hc]
          exact List.mem_cons_self v2 rest2
        have hkdist : ∀ {a b : MarshaledResult} {ka kb : RVal},
            a ∈ v0 :: v1 :: v2 :: rest2 → b ∈ v0 :: v1 :: v2 :: rest2 →
            a ≠ b → traverseFieldPathMap a.MarshaledValue f = .ok ka →
            traverseFieldPathMap b.MarshaledValue f = .ok kb →
            ka ≠ kb := by
          intro a b ka kb ha hb hab hka hkb
          obtain ⟨r, hc, hr0⟩ := hsym a ha b hb hab ka kb hka hkb
          exact fun he => hr0 ((compare_zero_iff hc).mpr he)
        have hnbool : d ≠ .dbool := by
          intro hdb
          subst hdb
          exact three_distinct_not_bool hd0 hd1 hd2
            (hkdist hm0 hm1 h01 hk0 hk1)
            (hkdist hm0 hm2 h02 hk0 hk2)
            (hkdist hm1 hm2 h12 hk1 hk2)
        obtain ⟨hflip, hasym, htot, htrans⟩ :=
          lessPure_order hnbool hdomall hsym
        have hbrA : sortSliceModel (sortLess ⟨f, false⟩)
            (v0 :: v1 :: v2 :: rest2) ⟨false, false⟩ =
            ((v0 :: v1 :: v2 :: rest2).foldl
              (insertP (lessPure ⟨f, false⟩)) [], ⟨false, false⟩) := by
          unfold sortSliceModel
          exact foldl_pure (v0 :: v1 :: v2 :: rest2) [] ⟨false, false⟩
            hdomall (fun q hq => nomatch hq)
        have hbrD : sortSliceModel (sortLess ⟨f, true⟩)
            (v0 :: v1 :: v2 :: rest2) ⟨false, false⟩ =
            ((v0 :: v1 :: v2 :: rest2).foldl
              (insertP (lessPure ⟨f, true⟩)) [], ⟨false, false⟩) := by
          unfold sortSliceModel
          exact foldl_pure (v0 :: v1 :: v2 :: rest2) [] ⟨false, false⟩
            hdomall (fun q hq => nomatch hq)
        have hrev : sortP (lessPure ⟨f, true⟩) (v0 :: v1 :: v2 :: rest2) =
            (sortP (lessPure ⟨f, false⟩) (v0 :: v1 :: v2 :: rest2)).reverse :=
          sortP_flip_reverse hflip hasym htot htrans hnd
        unfold sortP at hrev
        refine ⟨((v0 :: v1 :: v2 :: rest2).foldl
          (insertP (lessPure ⟨f, false⟩)) []).map (·.Value), ?_, ?_⟩
        · rw [Find_sort ands ors idx f false (v0 :: v1 :: v2 :: rest2) hf,
            hbrA]
          rfl
        · rw [Find_sort ands ors idx f true (v0 :: v1 :: v2 :: rest2) hf,
            hbrD, hrev]
          rw [show ∀ (l : List MarshaledResult),
            l.reverse.map (fun x => x.Value)
              = (l.map (fun x => x.Value)).reverse from
            fun l => List.map_reverse _ l]
          rfl

/-- **C9** witness: the spec's scenario — three records with ages 30, 20,
40; the descending result is the reverse of the ascending one. -/
theorem C9_desc_is_reverse_of_asc_witness :
    ∃ L, Find (some (.mk [] [] ⟨"age", false⟩ ""))
        [⟨[("age", .vnum 30)], [0]⟩, ⟨[("age", .vnum 20)], [1]⟩,
          ⟨[("age", .vnum 40)], [2]⟩] = .ok L ∧
      Find (some (.mk [] [] ⟨"age", true⟩ ""))
        [⟨[("age", .vnum 30)], [0]⟩, ⟨[("age", .vnum 20)], [1]⟩,
          ⟨[("age", .vnum 40)], [2]⟩] = .ok L.reverse := by
  refine C9_desc_is_reverse_of_asc [] [] "" "age" _ (by decide) ?_ ?_
  · intro p hp
    cases hp with
    | head => exact ⟨.vnum 30, rfl⟩
    | tail _ h =>
      cases h with
      | head => exact ⟨.vnum 20, rfl⟩
      | tail _ h2 =>
        cases h2 with
        | head => exact ⟨.vnum 40, rfl⟩
        | tail _ h3 => cases h3
  · refine List.Pairwise.cons ?_ (List.Pairwise.cons ?_
      (List.Pairwise.cons ?_ List.Pairwise.nil))
    · intro b hb
      cases hb with
      | head =>
        intro ka kb hka hkb
        cases Res.ok.inj hka
        cases Res.ok.inj hkb
        exact ⟨1, rfl, by decide⟩
      | tail _ h =>
        cases h with
        | head =>
          intro ka kb hka hkb
          cases Res.ok.inj hka
          cases Res.ok.inj hkb
          exact ⟨-1, rfl, by decide⟩
        | tail _ h2 => cases h2
    · intro b hb
      cases hb with
      | head =>
        intro ka kb hka hkb
        cases Res.ok.inj hka
        cases Res.ok.inj hkb
        exact ⟨-1, rfl, by decide⟩
      | tail _ h => cases h
    · intro b hb
      cases hb

end GoThreads
